import Mathlib

/-!
# PlaylistDownloader: retry loop, batch runners, filename sanitising, playlist-id extraction

A shallow embedding of `main.go`.  The single-item download `downloadYtVideo` talks to the
network, the file system and ffmpeg; it is embedded as an arbitrary function on an abstract
world state `W` and every function that calls it takes it as its first argument.  Output
(`fmt.Printf`), sleeping (`time.Sleep`) and the calls of the download are recorded in an
explicit list of events.
-/

namespace PlaylistDownloader

/-! ## Data model -/

/-- Go `error` values as main.go builds them: an error that carries only a message, or the
value of `fmt.Errorf` with a `%w` verb, which carries a message and the error it wraps. -/
inductive GoError where
  | leaf (msg : String)
  | wrap (msg : String) (cause : GoError)
  deriving DecidableEq, Repr

/-- The method `Error()` of an error value. -/
def GoError.Error : GoError → String
  | .leaf msg => msg
  | .wrap msg _ => msg

/-- The error an error value wraps (`errors.Unwrap`), if any. -/
def GoError.Unwrap : GoError → Option GoError
  | .leaf _ => none
  | .wrap _ cause => some cause

/-- Formatting of an `int` with the verb `%d`. -/
def fmtD (n : Int) : String := toString n

/-- The value of `fmt.Errorf(pre + "%w", err)`: the message is `pre` followed by the message
of `err`, and the result wraps `err`.  With a nil `err` the verb prints `%!w(<nil>)` and
nothing is wrapped. -/
def errorfW (pre : String) (err : Option GoError) : GoError :=
  match err with
  | some e => GoError.wrap (pre ++ e.Error) e
  | none => GoError.leaf (pre ++ "%!w(<nil>)")

/-- The struct `Song`. -/
structure Song where
  Name : String
  Artist : String
  id : String
  deriving DecidableEq, Repr

/-- The struct `Playlist`. -/
structure Playlist where
  Id : String
  Name : String
  Songs : List Song
  deriving DecidableEq, Repr

/-- The struct `DownloadError`. -/
structure DownloadError where
  Song : Song
  Err : GoError
  deriving DecidableEq, Repr

/-- Observable effects of the retry loop, in program order. -/
inductive Event where
  | call (videoURL outputDir : String)
  | print (text : String)
  | sleep (nanoseconds : Nat)
  deriving DecidableEq, Repr

/-- Whether an event is a call of `downloadYtVideo`. -/
def Event.isCall : Event → Bool
  | .call _ _ => true
  | _ => false

/-- Whether an event is a `time.Sleep`. -/
def Event.isSleep : Event → Bool
  | .sleep _ => true
  | _ => false

/-- Whether an event is a `fmt.Printf`. -/
def Event.isPrint : Event → Bool
  | .print _ => true
  | _ => false

/-- The value of `time.Second * 2`, in nanoseconds. -/
def retryDelay : Nat := 2 * 1000000000

/-- The outcome of running a piece of the program: the returned value, the world the download
left behind, and the events in the order they happened. -/
structure Run (W : Type) (α : Type) where
  val : α
  world : W
  trace : List Event

/-! ## `downloadYtVideoWithRetry` -/

/-- The `for i := 0; i < maxRetries; i++` loop of `downloadYtVideoWithRetry`, entered with
the loop variable at `i`, the variable `err` at `err`, and `remaining` iterations still to
run (`maxRetries - i` when that is positive, otherwise `0`). -/
def retryLoop {W : Type} (downloadYtVideo : String → String → W → Option GoError × W)
    (videoURL outputDir : String) (maxRetries : Int) :
    Nat → Nat → Option GoError → W → Run W (Option GoError)
  | 0, _, err, w =>
    ⟨some (errorfW ("failed after " ++ fmtD maxRetries ++ " attempts: ") err), w, []⟩
  | remaining + 1, i, _, w =>
    match downloadYtVideo videoURL outputDir w with
    | (none, w1) => ⟨none, w1, [Event.call videoURL outputDir]⟩
    | (some e, w1) =>
      let rest := retryLoop downloadYtVideo videoURL outputDir maxRetries remaining (i + 1)
        (some e) w1
      ⟨rest.val, rest.world,
        Event.call videoURL outputDir ::
        Event.print ("Attempt " ++ fmtD (i + 1 : Nat) ++ " failed: " ++ e.Error ++
          ". Retrying...\n") ::
        Event.sleep retryDelay :: rest.trace⟩

/-- The function `downloadYtVideoWithRetry`. -/
def downloadYtVideoWithRetry {W : Type}
    (downloadYtVideo : String → String → W → Option GoError × W)
    (videoURL outputDir : String) (maxRetries : Int) (w : W) : Run W (Option GoError) :=
  retryLoop downloadYtVideo videoURL outputDir maxRetries maxRetries.toNat 0 none w

/-- The world in which the call number `k` (counting from 0) of a run of consecutive calls of
the download on one video takes place, when the run starts in `w`. -/
def worldBefore {W : Type} (downloadYtVideo : String → String → W → Option GoError × W)
    (videoURL outputDir : String) (w : W) : Nat → W
  | 0 => w
  | k + 1 => (downloadYtVideo videoURL outputDir
      (worldBefore downloadYtVideo videoURL outputDir w k)).2

/-- What call number `k` (counting from 0) of a run of consecutive calls of the download on
one video returns, when the run starts in `w`. -/
def nthCall {W : Type} (downloadYtVideo : String → String → W → Option GoError × W)
    (videoURL outputDir : String) (w : W) (k : Nat) : Option GoError × W :=
  downloadYtVideo videoURL outputDir (worldBefore downloadYtVideo videoURL outputDir w k)

/-- The number of calls of `downloadYtVideo` in a trace. -/
def callCount (tr : List Event) : Nat := (tr.filter Event.isCall).length

/-- The number of `time.Sleep`s in a trace. -/
def sleepCount (tr : List Event) : Nat := (tr.filter Event.isSleep).length

/-! ## `sequentialDownload` -/

/-- The value of `fmt.Sprintf("https://www.youtube.com/watch?v=%s", s.id)`. -/
def videoURLOf (s : Song) : String := "https://www.youtube.com/watch?v=" ++ s.id

/-- The `for _, song := range playlist.Songs` loop of `sequentialDownload`, entered with the
songs still to visit and the current value of the variable `errors`. -/
def sequentialLoop {W : Type} (downloadYtVideo : String → String → W → Option GoError × W)
    (outputDir : String) : List Song → List DownloadError → W → Run W (List DownloadError)
  | [], errors, w => ⟨errors, w, []⟩
  | song :: rest, errors, w =>
    let r := downloadYtVideoWithRetry downloadYtVideo (videoURLOf song) outputDir 3 w
    match r.val with
    | some err =>
      let t := sequentialLoop downloadYtVideo outputDir rest
        (errors ++ [DownloadError.mk song err]) r.world
      ⟨t.val, t.world, r.trace ++ t.trace⟩
    | none =>
      let t := sequentialLoop downloadYtVideo outputDir rest errors r.world
      ⟨t.val, t.world, r.trace ++ t.trace⟩

/-- The function `sequentialDownload`. -/
def sequentialDownload {W : Type} (downloadYtVideo : String → String → W → Option GoError × W)
    (playlist : Playlist) (outputDir : String) (w : W) : Run W (List DownloadError) :=
  sequentialLoop downloadYtVideo outputDir playlist.Songs [] w

/-- The failure record of a song whose download, started in world `w`, fails on the first, the
second and the third call: the song with the retry-exhausted error that wraps the third
error.  `none` when one of the three calls succeeds. -/
def exhaustedAt {W : Type} (downloadYtVideo : String → String → W → Option GoError × W)
    (outputDir : String) (s : Song) (w : W) : Option DownloadError :=
  match (nthCall downloadYtVideo (videoURLOf s) outputDir w 0).1,
        (nthCall downloadYtVideo (videoURLOf s) outputDir w 1).1,
        (nthCall downloadYtVideo (videoURLOf s) outputDir w 2).1 with
  | some _, some _, some e =>
    some (DownloadError.mk s (GoError.wrap ("failed after 3 attempts: " ++ e.Error) e))
  | _, _, _ => none

/-- The world a song leaves behind when its download starts in `w`: the world after the first
call that succeeds, or after the third call when none of the three succeeds. -/
def worldAfterSong {W : Type} (downloadYtVideo : String → String → W → Option GoError × W)
    (outputDir : String) (s : Song) (w : W) : W :=
  match (nthCall downloadYtVideo (videoURLOf s) outputDir w 0).1,
        (nthCall downloadYtVideo (videoURLOf s) outputDir w 1).1 with
  | none, _ => (nthCall downloadYtVideo (videoURLOf s) outputDir w 0).2
  | some _, none => (nthCall downloadYtVideo (videoURLOf s) outputDir w 1).2
  | some _, some _ => (nthCall downloadYtVideo (videoURLOf s) outputDir w 2).2

/-- The world in which each song of the list starts, when the songs are taken one after the
other from world `w`. -/
def startWorlds {W : Type} (downloadYtVideo : String → String → W → Option GoError × W)
    (outputDir : String) : List Song → W → List W
  | [], _ => []
  | s :: rest, w =>
    w :: startWorlds downloadYtVideo outputDir rest
      (worldAfterSong downloadYtVideo outputDir s w)

/-! ## Sample downloads -/

/-- A download that fails on each call; the error message carries the number of calls made
before, which the world counts. -/
def countingFailure : String → String → Nat → Option GoError × Nat :=
  fun _ _ n => (some (GoError.leaf ("error " ++ toString n)), n + 1)

/-- A download that fails while the world, a count of the calls still to fail, is positive,
and succeeds once it is zero. -/
def failsThenSucceeds : String → String → Nat → Option GoError × Nat :=
  fun _ _ n =>
    match n with
    | 0 => (none, 0)
    | k + 1 => (some (GoError.leaf "transient"), k)

/-- A download whose outcome depends on the video only: it fails for the URLs in the list and
succeeds for all others. -/
def failsFor (bad : List String) : String → String → Unit → Option GoError × Unit :=
  fun videoURL _ _ =>
    if videoURL ∈ bad then (some (GoError.leaf ("unavailable: " ++ videoURL)), ())
    else (none, ())


/-! ## Format selection in `downloadYtVideo` -/

/-- The fields of `youtube.Format` that `downloadYtVideo` reads, with the itag that tells
formats apart. -/
structure Format where
  ItagNo : Int
  AverageBitrate : Int
  deriving DecidableEq, Repr

/-- The loop `for _, format := range formats` of `downloadYtVideo`, entered with the current
value of `bestFormat` (nil is `none`); each iteration has its own copy of `format`. -/
def bestFormatLoop : List Format → Option Format → Option Format
  | [], bestFormat => bestFormat
  | format :: rest, none => bestFormatLoop rest (some format)
  | format :: rest, some best =>
    if format.AverageBitrate > best.AverageBitrate then bestFormatLoop rest (some format)
    else bestFormatLoop rest (some best)

/-- What `downloadYtVideo` has decided when it calls `client.GetStream`: the value of
`bestFormat` and the format whose address is the second argument of `GetStream`. -/
structure StreamChoice where
  bestFormat : Option Format
  requested : Format
  deriving DecidableEq, Repr

/-- The part of `downloadYtVideo` between `video.Formats.WithAudioChannels()` and the call of
`client.GetStream`, on the list `formats` of audio-capable formats: the early return on an
empty list, the selection loop, and the argument `&formats[0]` of `GetStream`. -/
def streamChoice (formats : List Format) : Except GoError StreamChoice :=
  match formats with
  | [] => Except.error (GoError.leaf "no formats with audio channels available")
  | first :: rest =>
    Except.ok (StreamChoice.mk (bestFormatLoop (first :: rest) none) first)

/-! ## `extractYouTubePlaylistID` -/

/-- The fields of `url.URL` that `extractYouTubePlaylistID` reads. -/
structure URL where
  Host : String
  Path : String
  RawQuery : String
  deriving DecidableEq, Repr

/-- The two functions of `net/url` that `extractYouTubePlaylistID` calls: `url.Parse`, and
`parsedURL.Query().Get(key)` as a function of the parsed URL and the key. -/
structure NetURL where
  Parse : String → Except GoError URL
  QueryGet : URL → String → String

/-- Whether `sub` occurs in the character list as a contiguous block. -/
def containsChars : List Char → List Char → Bool
  | [], sub => sub.isEmpty
  | c :: cs, sub => sub.isPrefixOf (c :: cs) || containsChars cs sub

/-- The function `strings.Contains`. -/
def stringsContains (s substr : String) : Bool := containsChars s.data substr.data

/-- The pieces of a character list between the occurrences of the separator `sep`. -/
def splitChars (sep : Char) : List Char → List (List Char)
  | [] => [[]]
  | c :: cs =>
    if c = sep then [] :: splitChars sep cs
    else
      match splitChars sep cs with
      | [] => [[c]]
      | piece :: pieces => (c :: piece) :: pieces

/-- The value of `strings.Split(s, "/")`. -/
def splitSlash (s : String) : List String := (splitChars '/' s.data).map String.mk

/-- The loop `for i, part := range pathParts` of `extractYouTubePlaylistID`, on the parts from
index `i` on: the first part equal to "playlist" that has a successor returns that
successor (`pathParts[i+1]`). -/
def playlistPathLoop : List String → Option String
  | [] => none
  | part :: rest =>
    match rest with
    | [] => none
    | next :: _ => if part = "playlist" then some next else playlistPathLoop rest

/-- The function `extractYouTubePlaylistID`; the result is the pair of the returned string
and the returned error (nil is `none`). -/
def extractYouTubePlaylistID (lib : NetURL) (link : String) : String × Option GoError :=
  match lib.Parse link with
  | Except.error err => ("", some (errorfW "failed to parse URL: " (some err)))
  | Except.ok parsedURL =>
    if !stringsContains parsedURL.Host "youtube.com" && !stringsContains parsedURL.Host "youtu.be"
    then ("", some (GoError.leaf "invalid YouTube URL"))
    else
      let listID := lib.QueryGet parsedURL "list"
      if listID ≠ "" then (listID, none)
      else
        match playlistPathLoop (splitSlash parsedURL.Path) with
        | some id => (id, none)
        | none => ("", some (GoError.leaf "playlist ID not found in URL"))

/-- A stand-in for `net/url` that knows one link: it parses
`https://www.youtube.com/playlist/` into host `www.youtube.com`, path `/playlist/` and an
empty query, as `url.Parse` does, and rejects every other link. -/
def playlistSlashLib : NetURL where
  Parse := fun link =>
    if link = "https://www.youtube.com/playlist/" then
      Except.ok (URL.mk "www.youtube.com" "/playlist/" "")
    else Except.error (GoError.leaf "parse error")
  QueryGet := fun _ _ => ""


/-! ## `sanitizeFilename` -/

/-- The bytes `utf8.AppendRune` writes for a rune (a Unicode scalar value). -/
def utf8EncodeRune (r : Char) : List Nat :=
  if r.toNat < 0x80 then [r.toNat]
  else if r.toNat < 0x800 then [0xC0 + r.toNat / 64, 0x80 + r.toNat % 64]
  else if r.toNat < 0x10000 then
    [0xE0 + r.toNat / 4096, 0x80 + r.toNat / 64 % 64, 0x80 + r.toNat % 64]
  else
    [0xF0 + r.toNat / 262144, 0x80 + r.toNat / 4096 % 64, 0x80 + r.toNat / 64 % 64,
      0x80 + r.toNat % 64]

/-- The bytes of the Go string that holds the given runes. -/
def utf8Encode (runes : List Char) : List Nat := runes.flatMap utf8EncodeRune

/-- The function literal passed to `strings.Map` in `sanitizeFilename`. -/
def sanitizeMapping (r : Char) : Char :=
  if r.toNat < 32 || r = '/' || r = Char.ofNat 92 || r = ':' || r = '*' || r = '?' ||
      r = Char.ofNat 34 || r = '<' || r = '>' || r = '|' then '_'
  else r

/-- The function `strings.Map` with a mapping that never returns a negative rune: the bytes
of the result are the encodings of the mapped runes of `s`, in order.  The runes of `s` are
those a `range` over the string yields: the characters of a valid UTF-8 string, with U+FFFD
in the place of each byte that is not part of a valid encoding. -/
def stringsMap (mapping : Char → Char) (s : List Char) : List Nat :=
  utf8Encode (s.map mapping)

/-- The function `sanitizeFilename`; the result is the byte sequence of the returned string,
`len` and the slice `sanitized[:200]` being in bytes. -/
def sanitizeFilename (filename : String) : List Nat :=
  let sanitized := stringsMap sanitizeMapping filename.data
  if sanitized.length > 200 then sanitized.take 200 else sanitized


/-! ## `concurrentDownload`

The goroutines of `concurrentDownload` are embedded as a transition system: a state holds
the place each goroutine has reached, the WaitGroup counter, the two channels and the world
of the download; one step lets one goroutine execute its next statement.  Output is left out
of the state.  A call of `downloadYtVideo` takes its effect on the world when it returns. -/

/-- The place a goroutine started by `go func(s Song)` has reached. -/
inductive WorkerPC where
  /-- Before `semaphore <- struct{}{}`. -/
  | acquire
  /-- In `downloadYtVideoWithRetry`, at the test `i < maxRetries` with the loop variable at
  `i` and the variable `err` at `err`. -/
  | loop (i : Nat) (err : Option GoError)
  /-- In `downloadYtVideoWithRetry`, inside the call of `downloadYtVideo` of iteration `i`. -/
  | calling (i : Nat)
  /-- In `downloadYtVideoWithRetry`, in `time.Sleep` after the failed call of iteration `i`. -/
  | sleeping (i : Nat) (err : GoError)
  /-- After `downloadYtVideoWithRetry` returned the error `err`, before
  `errorChan <- DownloadError{Song: s, Err: err}`. -/
  | send (err : GoError)
  /-- Before the deferred `<-semaphore`, with the variable `err` of the goroutine at `err`. -/
  | release (err : Option GoError)
  /-- Before the deferred `wg.Done()`. -/
  | finishing (err : Option GoError)
  /-- The goroutine has returned. -/
  | exited (err : Option GoError)
  deriving DecidableEq, Repr

/-- The place the goroutine that runs `concurrentDownload` has reached. -/
inductive MainPC where
  /-- In the loop over `playlist.Songs`, with the songs still to visit. -/
  | spawning (rest : List Song)
  /-- At `wg.Wait()`. -/
  | waiting
  /-- Before `close(errorChan)`. -/
  | closing
  /-- In the loop `for err := range errorChan`. -/
  | ranging
  /-- At `return errors`. -/
  | returned
  deriving DecidableEq, Repr

/-- A state of a run of `concurrentDownload`. -/
structure ConcState (W : Type) where
  /-- Where the calling goroutine stands. -/
  main : MainPC
  /-- The counter of `wg`. -/
  wg : Nat
  /-- The capacity of `errorChan`, `len(playlist.Songs)`. -/
  errorChanCap : Nat
  /-- The buffer of `errorChan`, oldest element first. -/
  errorChan : List DownloadError
  /-- Whether `errorChan` has been closed. -/
  closed : Bool
  /-- The number of elements in the buffer of `semaphore`. -/
  semaphore : Nat
  /-- The goroutines started so far, in the order they were started, each with its argument
  `s` and the place it has reached. -/
  workers : List (Song × WorkerPC)
  /-- The variable `errors`. -/
  errors : List DownloadError
  /-- The world of the download. -/
  world : W

/-- The capacity of `semaphore`. -/
def semaphoreCap : Nat := 5

/-- The state in which `concurrentDownload` enters its first loop. -/
def concInit {W : Type} (playlist : Playlist) (w : W) : ConcState W where
  main := MainPC.spawning playlist.Songs
  wg := 0
  errorChanCap := playlist.Songs.length
  errorChan := []
  closed := false
  semaphore := 0
  workers := []
  errors := []
  world := w

/-- The next statement of the calling goroutine; `none` when it is blocked or has returned.
`wg.Add(1)` and the `go` statement of one iteration are one step. -/
def stepMain {W : Type} (st : ConcState W) : Option (ConcState W) :=
  match st.main with
  | MainPC.spawning (song :: rest) =>
    some { st with main := MainPC.spawning rest, wg := st.wg + 1,
                   workers := st.workers ++ [(song, WorkerPC.acquire)] }
  | MainPC.spawning [] => some { st with main := MainPC.waiting }
  | MainPC.waiting => if st.wg = 0 then some { st with main := MainPC.closing } else none
  | MainPC.closing => some { st with main := MainPC.ranging, closed := true }
  | MainPC.ranging =>
    match st.errorChan with
    | err :: rest => some { st with errorChan := rest, errors := st.errors ++ [err] }
    | [] => if st.closed then some { st with main := MainPC.returned } else none
  | MainPC.returned => none

/-- The next statement of the goroutine started `j`-th (counting from 0); `none` when there
is no such goroutine, when it is blocked on a channel, or when it has returned.  The call
`downloadYtVideoWithRetry(videoURL, outputDir, 3)` is run statement by statement, so that
calls of different goroutines interleave. -/
def stepWorker {W : Type} (downloadYtVideo : String → String → W → Option GoError × W)
    (outputDir : String) (st : ConcState W) (j : Nat) : Option (ConcState W) :=
  match st.workers[j]? with
  | none => none
  | some (s, pc) =>
    match pc with
    | WorkerPC.acquire =>
      if st.semaphore < semaphoreCap then
        some { st with semaphore := st.semaphore + 1,
                       workers := st.workers.set j (s, WorkerPC.loop 0 none) }
      else none
    | WorkerPC.loop i err =>
      if i < 3 then some { st with workers := st.workers.set j (s, WorkerPC.calling i) }
      else
        let e := errorfW ("failed after " ++ fmtD 3 ++ " attempts: ") err
        some { st with workers := st.workers.set j (s, WorkerPC.send e) }
    | WorkerPC.calling i =>
      match downloadYtVideo (videoURLOf s) outputDir st.world with
      | (none, w1) =>
        some { st with world := w1, workers := st.workers.set j (s, WorkerPC.release none) }
      | (some e, w1) =>
        some { st with world := w1, workers := st.workers.set j (s, WorkerPC.sleeping i e) }
    | WorkerPC.sleeping i e =>
      some { st with workers := st.workers.set j (s, WorkerPC.loop (i + 1) (some e)) }
    | WorkerPC.send e =>
      if st.errorChan.length < st.errorChanCap then
        some { st with errorChan := st.errorChan ++ [DownloadError.mk s e],
                       workers := st.workers.set j (s, WorkerPC.release (some e)) }
      else none
    | WorkerPC.release err =>
      if 0 < st.semaphore then
        some { st with semaphore := st.semaphore - 1,
                       workers := st.workers.set j (s, WorkerPC.finishing err) }
      else none
    | WorkerPC.finishing err =>
      if 0 < st.wg then
        some { st with wg := st.wg - 1, workers := st.workers.set j (s, WorkerPC.exited err) }
      else none
    | WorkerPC.exited _ => none

/-- One step of the goroutine the scheduler picks: `none` is the calling goroutine, `some j`
the goroutine started `j`-th. -/
def concStep {W : Type} (downloadYtVideo : String → String → W → Option GoError × W)
    (outputDir : String) (st : ConcState W) : Option Nat → Option (ConcState W)
  | none => stepMain st
  | some j => stepWorker downloadYtVideo outputDir st j

/-- The state after the goroutines have taken their steps in the order of the schedule;
`none` when the schedule picks a goroutine that cannot take a step. -/
def concRun {W : Type} (downloadYtVideo : String → String → W → Option GoError × W)
    (outputDir : String) : ConcState W → List (Option Nat) → Option (ConcState W)
  | st, [] => some st
  | st, a :: rest =>
    match concStep downloadYtVideo outputDir st a with
    | none => none
    | some st1 => concRun downloadYtVideo outputDir st1 rest

/-- The slice `concurrentDownload(playlist, outputDir)` returns when the goroutines take
their steps in the order of the schedule; `none` when the schedule picks a goroutine that
cannot take a step or stops before the calling goroutine is at its return. -/
def concurrentDownload {W : Type} (downloadYtVideo : String → String → W → Option GoError × W)
    (playlist : Playlist) (outputDir : String) (w : W) (sched : List (Option Nat)) :
    Option (List DownloadError) :=
  match concRun downloadYtVideo outputDir (concInit playlist w) sched with
  | some st => if st.main = MainPC.returned then some st.errors else none
  | none => none

/-- Whether a goroutine is inside `downloadYtVideoWithRetry`. -/
def WorkerPC.inRetry : WorkerPC → Bool
  | .acquire => false
  | .loop _ _ => true
  | .calling _ => true
  | .sleeping _ _ => true
  | .send _ => false
  | .release _ => false
  | .finishing _ => false
  | .exited _ => false

/-- Whether a goroutine is inside `downloadYtVideo`. -/
def WorkerPC.inCall : WorkerPC → Bool
  | .acquire => false
  | .loop _ _ => false
  | .calling _ => true
  | .sleeping _ _ => false
  | .send _ => false
  | .release _ => false
  | .finishing _ => false
  | .exited _ => false

/-- Whether a goroutine holds a slot of `semaphore`: it has sent to the channel and has not
yet received from it. -/
def WorkerPC.holdsSlot : WorkerPC → Bool
  | .acquire => false
  | .loop _ _ => true
  | .calling _ => true
  | .sleeping _ _ => true
  | .send _ => true
  | .release _ => true
  | .finishing _ => false
  | .exited _ => false

/-- Whether a goroutine has not returned yet. -/
def WorkerPC.alive : WorkerPC → Bool
  | .acquire => true
  | .loop _ _ => true
  | .calling _ => true
  | .sleeping _ _ => true
  | .send _ => true
  | .release _ => true
  | .finishing _ => true
  | .exited _ => false

/-- Whether a goroutine stands before its send to `errorChan`. -/
def WorkerPC.atSend : WorkerPC → Bool
  | .acquire => false
  | .loop _ _ => false
  | .calling _ => false
  | .sleeping _ _ => false
  | .send _ => true
  | .release _ => false
  | .finishing _ => false
  | .exited _ => false

/-- The variable `err` of a goroutine that is past the `if err != nil`. -/
def WorkerPC.finalErr : WorkerPC → Option GoError
  | .acquire => none
  | .loop _ _ => none
  | .calling _ => none
  | .sleeping _ _ => none
  | .send _ => none
  | .release err => err
  | .finishing err => err
  | .exited err => err

/-- The values a goroutine has sent to `errorChan`: its failure record once it is past the
`if err != nil` with a non-nil `err`. -/
def sentBy (g : Song × WorkerPC) : List DownloadError :=
  (g.2.finalErr.map (DownloadError.mk g.1)).toList

/-- Whether the goroutine of a pair is inside `downloadYtVideoWithRetry`. -/
def workerInRetry (g : Song × WorkerPC) : Bool := g.2.inRetry

/-- Whether the goroutine of a pair is inside `downloadYtVideo`. -/
def workerInCall (g : Song × WorkerPC) : Bool := g.2.inCall

/-- Whether the goroutine of a pair holds a slot of `semaphore`. -/
def workerHoldsSlot (g : Song × WorkerPC) : Bool := g.2.holdsSlot

/-- Whether the goroutine of a pair has not returned yet. -/
def workerAlive (g : Song × WorkerPC) : Bool := g.2.alive

/-- Whether the goroutine of a pair stands before its send to `errorChan`. -/
def workerAtSend (g : Song × WorkerPC) : Bool := g.2.atSend

/-- The songs the first loop of `concurrentDownload` has still to visit. -/
def MainPC.remaining : MainPC → List Song
  | .spawning rest => rest
  | .waiting => []
  | .closing => []
  | .ranging => []
  | .returned => []

/-- A bound on the number of steps a goroutine can still take, counting one more for the
element it may still add to `errorChan`. -/
def WorkerPC.weight : WorkerPC → Nat
  | .acquire => 16
  | .loop i _ => 6 + 3 * (3 - i)
  | .calling i => 8 + 3 * (3 - (i + 1))
  | .sleeping i _ => 7 + 3 * (3 - (i + 1))
  | .send _ => 5
  | .release _ => 2
  | .finishing _ => 1
  | .exited _ => 0

/-- The weight of the goroutine of a pair. -/
def workerWeight (g : Song × WorkerPC) : Nat := g.2.weight

/-- A bound on the number of steps the calling goroutine can still take, counting those of
the goroutines it has still to start. -/
def MainPC.weight : MainPC → Nat
  | .spawning rest => 17 * rest.length + 4
  | .waiting => 3
  | .closing => 2
  | .ranging => 1
  | .returned => 0

/-- A bound on the number of steps that can still be taken from a state. -/
def concMeasure {W : Type} (st : ConcState W) : Nat :=
  st.main.weight + (st.workers.map workerWeight).sum + st.errorChan.length

/-- The number of goroutines inside `downloadYtVideoWithRetry`. -/
def inFlightRetry {W : Type} (st : ConcState W) : Nat :=
  (st.workers.filter workerInRetry).length

/-- The number of goroutines inside `downloadYtVideo`. -/
def inFlightCalls {W : Type} (st : ConcState W) : Nat :=
  (st.workers.filter workerInCall).length


/-- The invariant of the runs of `concurrentDownload` on the playlist `p`. -/
structure ConcInv {W : Type} (p : Playlist) (st : ConcState W) : Prop where
  /-- The WaitGroup counter is the number of goroutines that have not returned. -/
  wg_eq : st.wg = (st.workers.filter workerAlive).length
  /-- The buffer of `semaphore` holds one element per goroutine that holds a slot. -/
  sem_eq : st.semaphore = (st.workers.filter workerHoldsSlot).length
  /-- The buffer of `semaphore` is within its capacity. -/
  sem_le : st.semaphore ≤ semaphoreCap
  /-- The goroutines started and the songs still to visit make up the playlist. -/
  songs : st.workers.map Prod.fst ++ st.main.remaining = p.Songs
  /-- The capacity of `errorChan` is the number of songs. -/
  cap : st.errorChanCap = p.Songs.length
  /-- What has been received and what is in the buffer is what the goroutines have sent. -/
  sent : (st.errors ++ st.errorChan).Perm (st.workers.flatMap sentBy)
  /-- The channel is closed exactly from the second loop on. -/
  closed_iff : st.closed = true ↔ (st.main = MainPC.ranging ∨ st.main = MainPC.returned)
  /-- Past `wg.Wait()` the counter is zero. -/
  waited : (st.main = MainPC.closing ∨ st.main = MainPC.ranging ∨ st.main = MainPC.returned) →
    st.wg = 0
  /-- At the return the buffer is empty. -/
  drained : st.main = MainPC.returned → st.errorChan = []


/-- The error `downloadYtVideoWithRetry(videoURL, outputDir, 3)` returns for a download whose
every call has the outcome `outcome`: nil when the call succeeds, and otherwise the
retry-exhausted error that wraps the error of the call. -/
def retryOutcome (outcome : Option GoError) : Option GoError :=
  outcome.map (fun e => errorfW ("failed after " ++ fmtD 3 ++ " attempts: ") (some e))

/-- What the variables of a goroutine hold when the outcome of the download of each song is
given by `o`: past a failed call `err` is the error of the song, the error to send is the
retry-exhausted one, and past the `if err != nil` the variable `err` is the result of the
retry loop. -/
def WorkerOK (o : Song → Option GoError) (g : Song × WorkerPC) : Prop :=
  match g.2 with
  | .acquire => True
  | .loop i err => i = 0 ∨ (err = o g.1 ∧ ∃ e, o g.1 = some e)
  | .calling _ => True
  | .sleeping _ e => o g.1 = some e
  | .send e => some e = retryOutcome (o g.1)
  | .release err => err = retryOutcome (o g.1)
  | .finishing err => err = retryOutcome (o g.1)
  | .exited err => err = retryOutcome (o g.1)


/-! ## Sample playlists and schedules -/

/-- A playlist of three songs, `A`, `B` and `C`. -/
def playlistABC : Playlist :=
  Playlist.mk "PL" "abc" [Song.mk "A" "x" "a", Song.mk "B" "x" "b", Song.mk "C" "x" "c"]

/-- The video URLs of the songs `A` and `C` of `playlistABC`. -/
def urlsAC : List String :=
  ["https://www.youtube.com/watch?v=a", "https://www.youtube.com/watch?v=c"]

/-- A schedule for `playlistABC` with the download `scriptedDownload scriptABC`: the three
goroutines are started, then the one of `C` runs to its end (14 steps), then the one of `B`
(11 steps), then the one of `A` (14 steps), and the calling goroutine collects the result. -/
def scheduleCBA : List (Option Nat) :=
  [none, none, none, none] ++ List.replicate 14 (some 2) ++ List.replicate 11 (some 1) ++
    List.replicate 14 (some 0) ++ [none, none, none, none, none]

/-- A playlist of seven songs. -/
def playlistSeven : Playlist :=
  Playlist.mk "PL" "seven" ((List.range 7).map (fun n => Song.mk "song" "x" (toString n)))

/-- A schedule for `playlistSeven`: the seven goroutines are started, then the first five
take a slot each and enter `downloadYtVideo`. -/
def scheduleFiveCalls : List (Option Nat) :=
  List.replicate 7 none ++ [some 0, some 0, some 1, some 1, some 2, some 2, some 3, some 3,
    some 4, some 4]

/-- The state `scheduleFiveCalls` leads to: five goroutines inside `downloadYtVideo`, two
before `semaphore <- struct{}{}`, the calling goroutine about to leave its first loop. -/
def stateFiveCalls : ConcState Unit where
  main := MainPC.spawning []
  wg := 7
  errorChanCap := 7
  errorChan := []
  closed := false
  semaphore := 5
  workers := (List.range 7).map (fun n =>
    (Song.mk "song" "x" (toString n), if n < 5 then WorkerPC.calling 0 else WorkerPC.acquire))
  errors := []
  world := ()


/-! ## Downloads whose outcome depends on the history of the video

The outcome of a call may depend on the calls made before for the same video, but on nothing
else: the world holds a local state per video URL (`view`), a call for a URL returns what the
function `o` gives on the local state of that URL and replaces that local state, and leaves
the local states of the other URLs as they are. -/

/-- The local state of a video after `k` calls, from the local state `l0`. -/
def localAfter {L : Type} (o : String → L → Option GoError × L) (u : String) (l0 : L) :
    Nat → L
  | 0 => l0
  | k + 1 => (o u (localAfter o u l0 k)).2

/-- The outcome of call number `k` (counting from 0) for a video whose local state was `l0`
before the first call. -/
def outcomeAt {L : Type} (o : String → L → Option GoError × L) (u : String) (l0 : L)
    (k : Nat) : Option GoError :=
  (o u (localAfter o u l0 k)).1

/-- What `downloadYtVideoWithRetry(videoURL, outputDir, 3)` returns for a video whose local
state is `l0` before the first call: nil when one of the three calls succeeds, otherwise the
retry-exhausted error that wraps the error of the third call. -/
def scriptedResult {L : Type} (o : String → L → Option GoError × L) (u : String) (l0 : L) :
    Option GoError :=
  match outcomeAt o u l0 0, outcomeAt o u l0 1, outcomeAt o u l0 2 with
  | some _, some _, some e =>
    some (errorfW ("failed after " ++ fmtD 3 ++ " attempts: ") (some e))
  | _, _, _ => none

/-- What the variables of a goroutine hold, and what the local state of its video is in the
world `world`, when the outcomes are given by `o` and the run started in world `w0`. -/
def WorkerScripted {W L : Type} (view : W → String → L)
    (o : String → L → Option GoError × L) (w0 world : W) (g : Song × WorkerPC) : Prop :=
  match g.2 with
  | .acquire => view world (videoURLOf g.1) = view w0 (videoURLOf g.1)
  | .loop i err =>
    view world (videoURLOf g.1) = localAfter o (videoURLOf g.1) (view w0 (videoURLOf g.1)) i ∧
    (∀ k, k < i → outcomeAt o (videoURLOf g.1) (view w0 (videoURLOf g.1)) k ≠ none) ∧
    i ≤ 3 ∧
    (i = 0 ∨ err = outcomeAt o (videoURLOf g.1) (view w0 (videoURLOf g.1)) (i - 1))
  | .calling i =>
    view world (videoURLOf g.1) = localAfter o (videoURLOf g.1) (view w0 (videoURLOf g.1)) i ∧
    (∀ k, k < i → outcomeAt o (videoURLOf g.1) (view w0 (videoURLOf g.1)) k ≠ none) ∧
    i < 3
  | .sleeping i e =>
    view world (videoURLOf g.1) =
      localAfter o (videoURLOf g.1) (view w0 (videoURLOf g.1)) (i + 1) ∧
    (∀ k, k < i → outcomeAt o (videoURLOf g.1) (view w0 (videoURLOf g.1)) k ≠ none) ∧
    i < 3 ∧
    outcomeAt o (videoURLOf g.1) (view w0 (videoURLOf g.1)) i = some e
  | .send e => some e = scriptedResult o (videoURLOf g.1) (view w0 (videoURLOf g.1))
  | .release err => err = scriptedResult o (videoURLOf g.1) (view w0 (videoURLOf g.1))
  | .finishing err => err = scriptedResult o (videoURLOf g.1) (view w0 (videoURLOf g.1))
  | .exited err => err = scriptedResult o (videoURLOf g.1) (view w0 (videoURLOf g.1))

/-- A download that follows a script: the world counts the calls made per video URL, and
call number `k` for the URL `u` returns `script u k`. -/
def scriptedDownload (script : String → Nat → Option GoError) :
    String → String → (String → Nat) → Option GoError × (String → Nat) :=
  fun videoURL _ calls =>
    (script videoURL (calls videoURL),
      fun u => if u = videoURL then calls videoURL + 1 else calls u)

/-- A script for `playlistABC`: the video of `A` fails on each call, the video of `B` fails
on its first two calls and then succeeds, the video of `C` fails on each call. -/
def scriptABC : String → Nat → Option GoError :=
  fun videoURL k =>
    if videoURL = "https://www.youtube.com/watch?v=b" then
      (if k < 2 then some (GoError.leaf "transient") else none)
    else some (GoError.leaf ("unavailable, call " ++ toString k))


/-! ## Theorems -/

/-! ### Lemmas -/

section Lemmas

variable {W : Type} (dl : String → String → W → Option GoError × W) (u d : String)

theorem worldBefore_shift (w : W) (k : Nat) :
    worldBefore dl u d (dl u d w).2 k = worldBefore dl u d w (k + 1) := by
  induction k with
  | zero => rfl
  | succ k ih => simp only [worldBefore] at ih ⊢; rw [ih]

theorem nthCall_shift (w : W) (k : Nat) :
    nthCall dl u d (dl u d w).2 k = nthCall dl u d w (k + 1) := by
  unfold nthCall; rw [worldBefore_shift]

theorem nthCall_zero (w : W) : nthCall dl u d w 0 = dl u d w := rfl

/-- The retry loop on a download that fails on each of the `r` calls that remain. -/
theorem retryLoop_allFail (N : Int) (r : Nat) :
    ∀ (i : Nat) (err : Option GoError) (w : W),
      (∀ k, k < r → (nthCall dl u d w k).1 ≠ none) →
      (retryLoop dl u d N r i err w).val =
          some (errorfW ("failed after " ++ fmtD N ++ " attempts: ")
            (if r = 0 then err else (nthCall dl u d w (r - 1)).1)) ∧
      (retryLoop dl u d N r i err w).world = worldBefore dl u d w r ∧
      callCount (retryLoop dl u d N r i err w).trace = r ∧
      sleepCount (retryLoop dl u d N r i err w).trace = r ∧
      ((retryLoop dl u d N r i err w).trace.filter Event.isPrint).length = r := by
  induction r with
  | zero => intro i err w _; simp [retryLoop, worldBefore, callCount, sleepCount]
  | succ r ih =>
    intro i err w h
    have h0 := h 0 (Nat.succ_pos r)
    rw [nthCall_zero] at h0
    rcases hdl : dl u d w with ⟨o, w1⟩
    rw [hdl] at h0
    cases o with
    | none => exact absurd rfl h0
    | some e =>
      have hw1 : w1 = (dl u d w).2 := by rw [hdl]
      have hrest : ∀ k, k < r → (nthCall dl u d w1 k).1 ≠ none := by
        intro k hk
        rw [hw1, nthCall_shift]
        exact h (k + 1) (Nat.succ_lt_succ hk)
      obtain ⟨hv, hw, hc, hs, hp⟩ := ih (i + 1) (some e) w1 hrest
      simp only [retryLoop, hdl]
      refine ⟨?_, ?_, ?_, ?_, ?_⟩
      · rw [hv]
        by_cases hr : r = 0
        · subst hr
          simp [nthCall_zero, hdl]
        · have : (nthCall dl u d w1 (r - 1)).1 = (nthCall dl u d w r).1 := by
            rw [hw1, nthCall_shift]
            congr 2
            omega
          simp [hr, this]
      · rw [hw, hw1, worldBefore_shift]
      · simp only [callCount] at hc ⊢
        simp [List.filter, Event.isCall, hc]
      · simp only [sleepCount] at hs ⊢
        simp [List.filter, Event.isSleep, hs]
      · simp [List.filter, Event.isPrint, hp]

/-- The retry loop on a download that fails on its first `m` calls and succeeds on the
next one, with more than `m` iterations remaining. -/
theorem retryLoop_succeeds (N : Int) (m : Nat) :
    ∀ (r i : Nat) (err : Option GoError) (w : W), m < r →
      (∀ k, k < m → (nthCall dl u d w k).1 ≠ none) →
      (nthCall dl u d w m).1 = none →
      (retryLoop dl u d N r i err w).val = none ∧
      (retryLoop dl u d N r i err w).world = (nthCall dl u d w m).2 ∧
      callCount (retryLoop dl u d N r i err w).trace = m + 1 := by
  induction m with
  | zero =>
    intro r i err w hr _ hs
    obtain ⟨r, rfl⟩ : ∃ r', r = r' + 1 := ⟨r - 1, by omega⟩
    rw [nthCall_zero] at hs ⊢
    rcases hdl : dl u d w with ⟨o, w1⟩
    rw [hdl] at hs
    simp only at hs
    subst hs
    simp [retryLoop, hdl, callCount, Event.isCall]
  | succ m ih =>
    intro r i err w hr hf hs
    obtain ⟨r, rfl⟩ : ∃ r', r = r' + 1 := ⟨r - 1, by omega⟩
    have h0 := hf 0 (Nat.succ_pos m)
    rw [nthCall_zero] at h0
    rcases hdl : dl u d w with ⟨o, w1⟩
    rw [hdl] at h0
    cases o with
    | none => exact absurd rfl h0
    | some e =>
      have hw1 : w1 = (dl u d w).2 := by rw [hdl]
      have hf1 : ∀ k, k < m → (nthCall dl u d w1 k).1 ≠ none := by
        intro k hk
        rw [hw1, nthCall_shift]
        exact hf (k + 1) (Nat.succ_lt_succ hk)
      have hs1 : (nthCall dl u d w1 m).1 = none := by rw [hw1, nthCall_shift]; exact hs
      obtain ⟨hv, hw, hc⟩ := ih r (i + 1) (some e) w1 (by omega) hf1 hs1
      simp only [retryLoop, hdl]
      refine ⟨hv, ?_, ?_⟩
      · rw [hw, hw1, nthCall_shift]
      · simp only [callCount] at hc ⊢
        simp [List.filter, Event.isCall, hc]

/-- The accumulator of the sequential loop is only ever appended to. -/
theorem sequentialLoop_acc (songs : List Song) :
    ∀ (acc : List DownloadError) (w : W),
      (sequentialLoop dl d songs acc w).val = acc ++ (sequentialLoop dl d songs [] w).val ∧
      (sequentialLoop dl d songs acc w).world = (sequentialLoop dl d songs [] w).world ∧
      (sequentialLoop dl d songs acc w).trace = (sequentialLoop dl d songs [] w).trace := by
  induction songs with
  | nil => intro acc w; simp [sequentialLoop]
  | cons s rest ih =>
    intro acc w
    simp only [sequentialLoop]
    cases (downloadYtVideoWithRetry dl (videoURLOf s) d 3 w).val with
    | none =>
      obtain ⟨h1, h2, h3⟩ := ih acc (downloadYtVideoWithRetry dl (videoURLOf s) d 3 w).world
      exact ⟨h1, h2, by simp only [h3]⟩
    | some err =>
      obtain ⟨h1, h2, h3⟩ := ih (acc ++ [DownloadError.mk s err])
        (downloadYtVideoWithRetry dl (videoURLOf s) d 3 w).world
      obtain ⟨g1, g2, g3⟩ := ih [DownloadError.mk s err]
        (downloadYtVideoWithRetry dl (videoURLOf s) d 3 w).world
      refine ⟨?_, ?_, ?_⟩
      · simp only [List.nil_append] at h1 g1 ⊢
        rw [h1, g1, List.append_assoc]
      · simp only [List.nil_append] at h2 g2 ⊢
        rw [h2, g2]
      · simp only [List.nil_append] at h3 g3 ⊢
        rw [h3, g3]

/-- One step of the sequential loop, with the accumulator factored out. -/
theorem sequentialLoop_cons (s : Song) (rest : List Song) (w : W) :
    (sequentialLoop dl d (s :: rest) [] w).val =
      ((downloadYtVideoWithRetry dl (videoURLOf s) d 3 w).val.map (DownloadError.mk s)).toList ++
        (sequentialLoop dl d rest []
          (downloadYtVideoWithRetry dl (videoURLOf s) d 3 w).world).val ∧
    (sequentialLoop dl d (s :: rest) [] w).world =
      (sequentialLoop dl d rest []
          (downloadYtVideoWithRetry dl (videoURLOf s) d 3 w).world).world := by
  simp only [sequentialLoop]
  cases (downloadYtVideoWithRetry dl (videoURLOf s) d 3 w).val with
  | none => simp
  | some err =>
    obtain ⟨g1, g2, _⟩ := sequentialLoop_acc dl d rest [DownloadError.mk s err]
      (downloadYtVideoWithRetry dl (videoURLOf s) d 3 w).world
    simp only [List.nil_append] at g1 g2 ⊢
    simp only [g1, g2, Option.map, Option.toList, List.singleton_append, and_self]

/-- The sequential loop over a concatenation is the loop over the first part followed by the
loop over the second part, started in the world the first part leaves. -/
theorem sequentialLoop_append (pre post : List Song) :
    ∀ w : W,
      (sequentialLoop dl d (pre ++ post) [] w).val =
        (sequentialLoop dl d pre [] w).val ++
          (sequentialLoop dl d post [] (sequentialLoop dl d pre [] w).world).val ∧
      (sequentialLoop dl d (pre ++ post) [] w).world =
        (sequentialLoop dl d post [] (sequentialLoop dl d pre [] w).world).world := by
  induction pre with
  | nil => intro w; simp [sequentialLoop]
  | cons s rest ih =>
    intro w
    obtain ⟨h1, h2⟩ := sequentialLoop_cons dl d s (rest ++ post) w
    obtain ⟨g1, g2⟩ := sequentialLoop_cons dl d s rest w
    obtain ⟨i1, i2⟩ := ih (downloadYtVideoWithRetry dl (videoURLOf s) d 3 w).world
    rw [List.cons_append, h1, h2, g1, g2, i1, i2]
    simp

/-- Three attempts on one song: the result is the failure record of `exhaustedAt`, and the
world left behind is `worldAfterSong`. -/
theorem retry_three (s : Song) (w : W) :
    (downloadYtVideoWithRetry dl (videoURLOf s) d 3 w).val.map (DownloadError.mk s) =
      exhaustedAt dl d s w ∧
    (downloadYtVideoWithRetry dl (videoURLOf s) d 3 w).world = worldAfterSong dl d s w := by
  have h3 : (3 : Int).toNat = 3 := rfl
  unfold downloadYtVideoWithRetry exhaustedAt worldAfterSong
  rw [h3]
  simp only [nthCall, worldBefore, retryLoop]
  rcases h0 : dl (videoURLOf s) d w with ⟨o0, w1⟩
  cases o0 with
  | none => simp
  | some e0 =>
    simp only
    rcases h1 : dl (videoURLOf s) d w1 with ⟨o1, w2⟩
    cases o1 with
    | none => simp
    | some e1 =>
      simp only
      rcases h2 : dl (videoURLOf s) d w2 with ⟨o2, w3⟩
      cases o2 with
      | none => simp
      | some e2 => simp [errorfW]; rfl

theorem utf8EncodeRune_ascii (r : Char) (h : r.toNat < 128) : utf8EncodeRune r = [r.toNat] := by
  simp [utf8EncodeRune, h]

theorem utf8EncodeRune_high (r : Char) (h : ¬ r.toNat < 128) :
    ∀ b ∈ utf8EncodeRune r, 128 ≤ b := by
  intro b hb
  unfold utf8EncodeRune at hb
  simp only [show ¬ r.toNat < 0x80 from h, if_false] at hb
  split_ifs at hb <;> simp at hb <;> omega

theorem utf8EncodeRune_length (r : Char) :
    1 ≤ (utf8EncodeRune r).length ∧ (utf8EncodeRune r).length ≤ 4 := by
  unfold utf8EncodeRune
  split_ifs <;> simp

theorem utf8Encode_cons (r : Char) (rs : List Char) :
    utf8Encode (r :: rs) = utf8EncodeRune r ++ utf8Encode rs := by
  simp [utf8Encode]

theorem utf8Encode_append (a b : List Char) :
    utf8Encode (a ++ b) = utf8Encode a ++ utf8Encode b := by
  simp [utf8Encode]

/-- A mapped rune is neither a control character nor a reserved character. -/
theorem sanitizeMapping_safe (r : Char) :
    32 ≤ (sanitizeMapping r).toNat ∧
    sanitizeMapping r ∉ ['/', Char.ofNat 92, ':', '*', '?', Char.ofNat 34, '<', '>', '|'] := by
  unfold sanitizeMapping
  split_ifs with h
  · exact ⟨by decide, by decide⟩
  · simp only [Bool.or_eq_true, decide_eq_true_eq, not_or, not_lt] at h
    refine ⟨by tauto, ?_⟩
    simp only [List.mem_cons, List.mem_singleton, List.not_mem_nil, or_false, not_or]
    tauto

/-- What the mapping does to a rune, spelled out. -/
theorem sanitizeMapping_eq (r : Char) :
    sanitizeMapping r =
      if r.toNat < 32 ∨
        r ∈ ['/', Char.ofNat 92, ':', '*', '?', Char.ofNat 34, '<', '>', '|'] then '_'
      else r := by
  unfold sanitizeMapping
  simp only [Bool.or_eq_true, decide_eq_true_eq, List.mem_cons, List.mem_singleton,
    List.not_mem_nil, or_false, or_assoc]

/-- The bytes of the encoding of a safe rune are at least 32 and none of the reserved
ASCII codes. -/
theorem utf8EncodeRune_safe (r : Char) (h32 : 32 ≤ r.toNat)
    (hres : r ∉ ['/', Char.ofNat 92, ':', '*', '?', Char.ofNat 34, '<', '>', '|']) :
    ∀ b ∈ utf8EncodeRune r, 32 ≤ b ∧ b ∉ [47, 92, 58, 42, 63, 34, 60, 62, 124] := by
  intro b hb
  by_cases h : r.toNat < 128
  · rw [utf8EncodeRune_ascii r h] at hb
    simp only [List.mem_singleton] at hb
    subst hb
    refine ⟨h32, ?_⟩
    intro hmem
    apply hres
    have hr : r = Char.ofNat r.toNat := by
      simp [Char.ofNat_toNat]
    rw [hr]
    simp only [List.mem_cons, List.mem_singleton, List.not_mem_nil, or_false] at hmem
    rcases hmem with h | h | h | h | h | h | h | h | h <;> rw [h] <;> decide
  · have := utf8EncodeRune_high r h b hb
    refine ⟨by omega, ?_⟩
    simp only [List.mem_cons, List.mem_singleton, List.not_mem_nil, or_false]
    omega

/-- A prefix of an encoding is the encoding of a prefix of the runes followed by a fragment
of fewer than four bytes, all at least 128, and empty when the whole encoding is taken. -/
theorem take_utf8Encode (m : List Char) :
    ∀ n : Nat, ∃ (k : Nat) (tail : List Nat),
      (utf8Encode m).take n = utf8Encode (m.take k) ++ tail ∧
      (∀ b ∈ tail, 128 ≤ b) ∧ tail.length < 4 ∧
      ((utf8Encode m).length ≤ n → k = m.length ∧ tail = []) := by
  induction m with
  | nil => intro n; exact ⟨0, [], by simp [utf8Encode], by simp, by simp, by simp⟩
  | cons r rs ih =>
    intro n
    rw [utf8Encode_cons]
    by_cases hn : (utf8EncodeRune r).length ≤ n
    · obtain ⟨k, tail, h1, h2, h3, h4⟩ := ih (n - (utf8EncodeRune r).length)
      refine ⟨k + 1, tail, ?_, h2, h3, ?_⟩
      · rw [List.take_append_eq_append_take, List.take_of_length_le hn, h1]
        simp [utf8Encode_cons]
      · intro hlen
        simp only [List.length_append] at hlen
        obtain ⟨g1, g2⟩ := h4 (by omega)
        exact ⟨by simp [g1], g2⟩
    · push_neg at hn
      have hlen := utf8EncodeRune_length r
      refine ⟨0, (utf8EncodeRune r).take n, ?_, ?_, ?_, ?_⟩
      · rw [List.take_append_of_le_length (le_of_lt hn)]
        simp [utf8Encode]
      · intro b hb
        by_cases h : r.toNat < 128
        · rw [utf8EncodeRune_ascii r h] at hb hn
          simp only [List.length_singleton, Nat.lt_one_iff] at hn
          subst hn
          simp at hb
        · exact utf8EncodeRune_high r h b (List.mem_of_mem_take hb)
      · rw [List.length_take]
        omega
      · intro h
        simp only [List.length_append] at h
        omega

theorem utf8Encode_safe (m : List Char)
    (hm : ∀ c ∈ m, 32 ≤ c.toNat ∧
      c ∉ ['/', Char.ofNat 92, ':', '*', '?', Char.ofNat 34, '<', '>', '|']) :
    ∀ b ∈ utf8Encode m, 32 ≤ b ∧ b ∉ [47, 92, 58, 42, 63, 34, 60, 62, 124] := by
  intro b hb
  simp only [utf8Encode, List.mem_flatMap] at hb
  obtain ⟨c, hc, hbc⟩ := hb
  exact utf8EncodeRune_safe c (hm c hc).1 (hm c hc).2 b hbc

/-- The result of `sanitizeFilename` in terms of the mapped runes. -/
theorem sanitizeFilename_shape (filename : String) :
    (∀ b ∈ sanitizeFilename filename, 32 ≤ b ∧ b ∉ [47, 92, 58, 42, 63, 34, 60, 62, 124]) ∧
    (∀ c ∈ filename.data.map sanitizeMapping,
      32 ≤ c.toNat ∧ c ∉ ['/', Char.ofNat 92, ':', '*', '?', Char.ofNat 34, '<', '>', '|']) ∧
    ∃ (k : Nat) (tail : List Nat),
      sanitizeFilename filename = utf8Encode ((filename.data.map sanitizeMapping).take k) ++ tail ∧
      (∀ b ∈ tail, 128 ≤ b) ∧ tail.length < 4 ∧
      ((utf8Encode (filename.data.map sanitizeMapping)).length ≤ 200 →
        k = filename.data.length ∧ tail = []) := by
  have hsafe : ∀ c ∈ filename.data.map sanitizeMapping,
      32 ≤ c.toNat ∧
        c ∉ ['/', Char.ofNat 92, ':', '*', '?', Char.ofNat 34, '<', '>', '|'] := by
    intro c hc
    simp only [List.mem_map] at hc
    obtain ⟨a, _, rfl⟩ := hc
    exact sanitizeMapping_safe a
  have hdef : sanitizeFilename filename =
      if (utf8Encode (filename.data.map sanitizeMapping)).length > 200 then
        (utf8Encode (filename.data.map sanitizeMapping)).take 200
      else utf8Encode (filename.data.map sanitizeMapping) := rfl
  refine ⟨?_, hsafe, ?_⟩
  · intro b hb
    apply utf8Encode_safe _ hsafe b
    rw [hdef] at hb
    split_ifs at hb
    · exact List.mem_of_mem_take hb
    · exact hb
  · rw [hdef]
    split_ifs with h
    · obtain ⟨k, tail, h1, h2, h3, _⟩ :=
        take_utf8Encode (filename.data.map sanitizeMapping) 200
      exact ⟨k, tail, h1, h2, h3, fun hle => absurd hle (by omega)⟩
    · refine ⟨filename.data.length, [], ?_, by simp, by simp, fun _ => ⟨rfl, rfl⟩⟩
      rw [List.append_nil, List.take_of_length_le (by simp)]

/-- A list splits around the element at a valid index, and `set` replaces that element. -/
theorem split_at_index {α : Type} (l : List α) (j : Nat) (x : α) (h : l[j]? = some x) :
    ∃ a b, l = a ++ x :: b ∧ ∀ y, l.set j y = a ++ y :: b := by
  induction l generalizing j with
  | nil => simp at h
  | cons z zs ih =>
    cases j with
    | zero =>
      simp at h
      subst h
      exact ⟨[], zs, rfl, fun y => rfl⟩
    | succ j =>
      simp at h
      obtain ⟨a, b, h1, h2⟩ := ih j h
      refine ⟨z :: a, b, by rw [h1]; rfl, fun y => ?_⟩
      simp [List.set, h2]

/-- What a step of a goroutine does: the goroutine at the index moves from `pc` to `pc1`,
the other goroutines stay, and the calling goroutine stays. -/
theorem stepWorker_shape (st st1 : ConcState W) (j : Nat)
    (h : stepWorker dl d st j = some st1) :
    ∃ a b s pc pc1, st.workers = a ++ (s, pc) :: b ∧ st1.workers = a ++ (s, pc1) :: b ∧
      st1.main = st.main ∧ st1.errorChanCap = st.errorChanCap ∧ st1.closed = st.closed ∧
      st1.errors = st.errors ∧
      st1.world = (if pc.inCall then (dl (videoURLOf s) d st.world).2 else st.world) ∧
      ((pc = WorkerPC.acquire ∧ pc1 = WorkerPC.loop 0 none ∧ st.semaphore < semaphoreCap ∧
          st1.semaphore = st.semaphore + 1 ∧ st1.wg = st.wg ∧ st1.errorChan = st.errorChan) ∨
       (∃ i err, pc = WorkerPC.loop i err ∧ i < 3 ∧ pc1 = WorkerPC.calling i ∧
          st1.semaphore = st.semaphore ∧ st1.wg = st.wg ∧ st1.errorChan = st.errorChan) ∨
       (∃ i err, pc = WorkerPC.loop i err ∧ ¬ i < 3 ∧
          pc1 = WorkerPC.send (errorfW ("failed after " ++ fmtD 3 ++ " attempts: ") err) ∧
          st1.semaphore = st.semaphore ∧ st1.wg = st.wg ∧ st1.errorChan = st.errorChan) ∨
       (∃ i, pc = WorkerPC.calling i ∧ (dl (videoURLOf s) d st.world).1 = none ∧
          pc1 = WorkerPC.release none ∧
          st1.semaphore = st.semaphore ∧ st1.wg = st.wg ∧ st1.errorChan = st.errorChan) ∨
       (∃ i e, pc = WorkerPC.calling i ∧ (dl (videoURLOf s) d st.world).1 = some e ∧
          pc1 = WorkerPC.sleeping i e ∧
          st1.semaphore = st.semaphore ∧ st1.wg = st.wg ∧ st1.errorChan = st.errorChan) ∨
       (∃ i e, pc = WorkerPC.sleeping i e ∧ pc1 = WorkerPC.loop (i + 1) (some e) ∧
          st1.semaphore = st.semaphore ∧ st1.wg = st.wg ∧ st1.errorChan = st.errorChan) ∨
       (∃ e, pc = WorkerPC.send e ∧ pc1 = WorkerPC.release (some e) ∧
          st.errorChan.length < st.errorChanCap ∧
          st1.semaphore = st.semaphore ∧ st1.wg = st.wg ∧
          st1.errorChan = st.errorChan ++ [DownloadError.mk s e]) ∨
       (∃ err, pc = WorkerPC.release err ∧ pc1 = WorkerPC.finishing err ∧ 0 < st.semaphore ∧
          st1.semaphore = st.semaphore - 1 ∧ st1.wg = st.wg ∧ st1.errorChan = st.errorChan) ∨
       (∃ err, pc = WorkerPC.finishing err ∧ pc1 = WorkerPC.exited err ∧ 0 < st.wg ∧
          st1.semaphore = st.semaphore ∧ st1.wg = st.wg - 1 ∧
          st1.errorChan = st.errorChan)) := by
  unfold stepWorker at h
  rcases hj : st.workers[j]? with _ | ⟨s, pc⟩
  · simp [hj] at h
  · obtain ⟨a, b, hab, hset⟩ := split_at_index st.workers j (s, pc) hj
    rw [hj] at h
    simp only at h
    cases pc with
    | acquire =>
      simp only at h
      split_ifs at h with hs
      cases h
      exact ⟨a, b, s, _, _, hab, hset _, rfl, rfl, rfl, rfl, rfl,
        Or.inl ⟨rfl, rfl, hs, rfl, rfl, rfl⟩⟩
    | loop i err =>
      simp only at h
      split_ifs at h with hi
      · cases h
        exact ⟨a, b, s, _, _, hab, hset _, rfl, rfl, rfl, rfl, rfl,
          Or.inr (Or.inl ⟨i, err, rfl, hi, rfl, rfl, rfl, rfl⟩)⟩
      · cases h
        exact ⟨a, b, s, _, _, hab, hset _, rfl, rfl, rfl, rfl, rfl,
          Or.inr (Or.inr (Or.inl ⟨i, err, rfl, hi, rfl, rfl, rfl, rfl⟩))⟩
    | calling i =>
      simp only at h
      rcases hdl : dl (videoURLOf s) d st.world with ⟨o, w1⟩
      rw [hdl] at h
      cases o with
      | none =>
        cases h
        exact ⟨a, b, s, _, _, hab, hset _, rfl, rfl, rfl, rfl,
          by simp [WorkerPC.inCall, hdl],
          Or.inr (Or.inr (Or.inr (Or.inl ⟨i, rfl, by rw [hdl], rfl, rfl, rfl, rfl⟩)))⟩
      | some e =>
        cases h
        exact ⟨a, b, s, _, _, hab, hset _, rfl, rfl, rfl, rfl,
          by simp [WorkerPC.inCall, hdl],
          Or.inr (Or.inr (Or.inr (Or.inr (Or.inl ⟨i, e, rfl, by rw [hdl], rfl, rfl, rfl, rfl⟩))))⟩
    | sleeping i e =>
      cases h
      exact ⟨a, b, s, _, _, hab, hset _, rfl, rfl, rfl, rfl, rfl,
        Or.inr (Or.inr (Or.inr (Or.inr (Or.inr (Or.inl ⟨i, e, rfl, rfl, rfl, rfl, rfl⟩)))))⟩
    | send e =>
      simp only at h
      split_ifs at h with hc
      cases h
      exact ⟨a, b, s, _, _, hab, hset _, rfl, rfl, rfl, rfl, rfl,
        Or.inr (Or.inr (Or.inr (Or.inr (Or.inr (Or.inr (Or.inl
          ⟨e, rfl, rfl, hc, rfl, rfl, rfl⟩))))))⟩
    | release err =>
      simp only at h
      split_ifs at h with hs
      cases h
      exact ⟨a, b, s, _, _, hab, hset _, rfl, rfl, rfl, rfl, rfl,
        Or.inr (Or.inr (Or.inr (Or.inr (Or.inr (Or.inr (Or.inr (Or.inl
          ⟨err, rfl, rfl, hs, rfl, rfl, rfl⟩)))))))⟩
    | finishing err =>
      simp only at h
      split_ifs at h with hs
      cases h
      exact ⟨a, b, s, _, _, hab, hset _, rfl, rfl, rfl, rfl, rfl,
        Or.inr (Or.inr (Or.inr (Or.inr (Or.inr (Or.inr (Or.inr (Or.inr
          ⟨err, rfl, rfl, hs, rfl, rfl, rfl⟩)))))))⟩
    | exited err => simp at h

/-- What a step of the calling goroutine does. -/
theorem stepMain_shape (st st1 : ConcState W) (h : stepMain st = some st1) :
    st1.errorChanCap = st.errorChanCap ∧ st1.semaphore = st.semaphore ∧
    ((∃ song rest, st.main = MainPC.spawning (song :: rest) ∧
        st1.main = MainPC.spawning rest ∧ st1.wg = st.wg + 1 ∧
        st1.workers = st.workers ++ [(song, WorkerPC.acquire)] ∧
        st1.errorChan = st.errorChan ∧ st1.closed = st.closed ∧ st1.errors = st.errors) ∨
     (st.main = MainPC.spawning [] ∧ st1.main = MainPC.waiting ∧ st1.wg = st.wg ∧
        st1.workers = st.workers ∧
        st1.errorChan = st.errorChan ∧ st1.closed = st.closed ∧ st1.errors = st.errors) ∨
     (st.main = MainPC.waiting ∧ st.wg = 0 ∧ st1.main = MainPC.closing ∧ st1.wg = st.wg ∧
        st1.workers = st.workers ∧
        st1.errorChan = st.errorChan ∧ st1.closed = st.closed ∧ st1.errors = st.errors) ∨
     (st.main = MainPC.closing ∧ st1.main = MainPC.ranging ∧ st1.wg = st.wg ∧
        st1.workers = st.workers ∧
        st1.errorChan = st.errorChan ∧ st1.closed = true ∧ st1.errors = st.errors) ∨
     (∃ err rest, st.main = MainPC.ranging ∧ st.errorChan = err :: rest ∧
        st1.main = MainPC.ranging ∧ st1.wg = st.wg ∧ st1.workers = st.workers ∧
        st1.errorChan = rest ∧ st1.closed = st.closed ∧ st1.errors = st.errors ++ [err]) ∨
     (st.main = MainPC.ranging ∧ st.errorChan = [] ∧ st.closed = true ∧
        st1.main = MainPC.returned ∧ st1.wg = st.wg ∧ st1.workers = st.workers ∧
        st1.errorChan = st.errorChan ∧ st1.closed = st.closed ∧ st1.errors = st.errors)) := by
  unfold stepMain at h
  rcases hm : st.main with rest | _ | _ | _ | _
  · rw [hm] at h
    cases rest with
    | nil =>
      cases h
      exact ⟨rfl, rfl, Or.inr (Or.inl ⟨rfl, rfl, rfl, rfl, rfl, rfl, rfl⟩)⟩
    | cons song rest =>
      cases h
      exact ⟨rfl, rfl, Or.inl ⟨song, rest, rfl, rfl, rfl, rfl, rfl, rfl, rfl⟩⟩
  · rw [hm] at h
    simp only at h
    split_ifs at h with hw
    cases h
    exact ⟨rfl, rfl, Or.inr (Or.inr (Or.inl ⟨rfl, hw, rfl, rfl, rfl, rfl, rfl, rfl⟩))⟩
  · rw [hm] at h
    cases h
    exact ⟨rfl, rfl, Or.inr (Or.inr (Or.inr (Or.inl ⟨rfl, rfl, rfl, rfl, rfl, rfl, rfl⟩)))⟩
  · rw [hm] at h
    simp only at h
    rcases hc : st.errorChan with _ | ⟨err, rest⟩
    · rw [hc] at h
      simp only at h
      split_ifs at h with hcl
      cases h
      exact ⟨rfl, rfl, Or.inr (Or.inr (Or.inr (Or.inr (Or.inr
        ⟨rfl, rfl, hcl, rfl, rfl, rfl, hc.symm ▸ rfl, rfl, rfl⟩))))⟩
    · rw [hc] at h
      cases h
      exact ⟨rfl, rfl, Or.inr (Or.inr (Or.inr (Or.inr (Or.inl
        ⟨err, rest, rfl, rfl, rfl, rfl, rfl, rfl, rfl, rfl⟩))))⟩
  · rw [hm] at h
    simp at h

/-- Each step lowers the measure. -/
theorem concStep_measure (st st1 : ConcState W) (a : Option Nat)
    (h : concStep dl d st a = some st1) : concMeasure st1 < concMeasure st := by
  cases a with
  | none =>
    obtain ⟨_, _, hcase⟩ := stepMain_shape st st1 h
    unfold concMeasure
    rcases hcase with ⟨song, rest, h1, h2, _, h4, h5, _, _⟩ | ⟨h1, h2, _, h4, h5, _, _⟩ |
      ⟨h1, _, h2, _, h4, h5, _, _⟩ | ⟨h1, h2, _, h4, h5, _, _⟩ |
      ⟨err, rest, h1, h1', h2, _, h4, h5, _, _⟩ | ⟨h1, _, _, h2, _, h4, h5, _, _⟩ <;>
    (simp [h1, h2, h4, h5, MainPC.weight, workerWeight, WorkerPC.weight, *]
     try omega)
  | some j =>
    obtain ⟨a, b, s, pc, pc1, hw, hw1, hm, _, _, _, _, hcase⟩ :=
      stepWorker_shape dl d st st1 j h
    unfold concMeasure
    rw [hw, hw1, hm]
    simp only [List.map_append, List.map_cons, List.sum_append, List.sum_cons]
    rcases hcase with ⟨h1, h2, _, _, _, h6⟩ | ⟨i, err, h1, hi, h2, _, _, h6⟩ |
      ⟨i, err, h1, hi, h2, _, _, h6⟩ | ⟨i, h1, _, h2, _, _, h6⟩ |
      ⟨i, e, h1, _, h2, _, _, h6⟩ | ⟨i, e, h1, h2, _, _, h6⟩ |
      ⟨e, h1, h2, _, _, _, h6⟩ | ⟨err, h1, h2, _, _, _, h6⟩ | ⟨err, h1, h2, _, _, _, h6⟩ <;>
    (simp only [h1, h2, h6, workerWeight, WorkerPC.weight, List.length_append,
      List.length_singleton]
     omega)

/-- A run of `n` steps lowers the measure by at least `n`. -/
theorem concRun_measure (sched : List (Option Nat)) :
    ∀ (st st1 : ConcState W), concRun dl d st sched = some st1 →
      sched.length + concMeasure st1 ≤ concMeasure st := by
  induction sched with
  | nil => intro st st1 h; simp [concRun] at h; subst h; simp
  | cons a rest ih =>
    intro st st1 h
    simp only [concRun] at h
    rcases hs : concStep dl d st a with _ | st2
    · rw [hs] at h; simp at h
    · rw [hs] at h
      have h1 := ih st2 st1 h
      have h2 := concStep_measure dl d st st2 a hs
      simp only [List.length_cons]
      omega

theorem concInit_inv (p : Playlist) (w : W) : ConcInv p (concInit p w) := by
  constructor <;> simp [concInit, MainPC.remaining]

theorem stepMain_inv (p : Playlist) (st st1 : ConcState W) (inv : ConcInv p st)
    (h : stepMain st = some st1) : ConcInv p st1 := by
  obtain ⟨hcap, hsem, hcase⟩ := stepMain_shape st st1 h
  obtain ⟨i1, i2, i3, i4, i5, i6, i7, i8, i9⟩ := inv
  rcases hcase with ⟨song, rest, h1, h2, h3, h4, h5, h6, h7⟩ | ⟨h1, h2, h3, h4, h5, h6, h7⟩ |
      ⟨h1, h0, h2, h3, h4, h5, h6, h7⟩ | ⟨h1, h2, h3, h4, h5, h6, h7⟩ |
      ⟨err, rest, h1, h1', h2, h3, h4, h5, h6, h7⟩ | ⟨h1, h0, h0', h2, h3, h4, h5, h6, h7⟩
  · constructor
    · rw [h3, h4, i1]; simp [workerAlive, WorkerPC.alive]
    · rw [hsem, h4, i2]; simp [workerHoldsSlot, WorkerPC.holdsSlot]
    · rw [hsem]; exact i3
    · rw [h4, h2, ← i4, h1]; simp [MainPC.remaining]
    · rw [hcap]; exact i5
    · rw [h7, h5, h4]; simpa [sentBy, WorkerPC.finalErr] using i6
    · rw [h6, h2, i7, h1]; simp
    · rw [h2]; simp
    · rw [h2]; simp
  · constructor
    · rw [h3, h4]; exact i1
    · rw [hsem, h4]; exact i2
    · rw [hsem]; exact i3
    · rw [h4, h2, ← i4, h1]; simp [MainPC.remaining]
    · rw [hcap]; exact i5
    · rw [h7, h5, h4]; exact i6
    · rw [h6, h2, i7, h1]; simp
    · rw [h2]; simp
    · rw [h2]; simp
  · constructor
    · rw [h3, h4]; exact i1
    · rw [hsem, h4]; exact i2
    · rw [hsem]; exact i3
    · rw [h4, h2, ← i4, h1]; simp [MainPC.remaining]
    · rw [hcap]; exact i5
    · rw [h7, h5, h4]; exact i6
    · rw [h6, h2, i7, h1]; simp
    · intro _; rw [h3]; exact h0
    · rw [h2]; simp
  · constructor
    · rw [h3, h4]; exact i1
    · rw [hsem, h4]; exact i2
    · rw [hsem]; exact i3
    · rw [h4, h2, ← i4, h1]; simp [MainPC.remaining]
    · rw [hcap]; exact i5
    · rw [h7, h5, h4]; exact i6
    · rw [h6, h2]; simp
    · intro _; rw [h3]; exact i8 (Or.inl h1)
    · rw [h2]; simp
  · constructor
    · rw [h3, h4]; exact i1
    · rw [hsem, h4]; exact i2
    · rw [hsem]; exact i3
    · rw [h4, h2, ← i4, h1]
    · rw [hcap]; exact i5
    · rw [h7, h5, h4]
      rw [h1'] at i6
      simpa using i6
    · rw [h6, h2, i7, h1]
    · intro _; rw [h3]; exact i8 (Or.inr (Or.inl h1))
    · rw [h2]; simp
  · constructor
    · rw [h3, h4]; exact i1
    · rw [hsem, h4]; exact i2
    · rw [hsem]; exact i3
    · rw [h4, h2, ← i4, h1]; simp [MainPC.remaining]
    · rw [hcap]; exact i5
    · rw [h7, h5, h4]; exact i6
    · rw [h6, h2, i7, h1]; simp
    · intro _; rw [h3]; exact i8 (Or.inr (Or.inl h1))
    · intro _; rw [h5]; exact h0

theorem stepWorker_inv (p : Playlist) (st st1 : ConcState W) (j : Nat) (inv : ConcInv p st)
    (h : stepWorker dl d st j = some st1) : ConcInv p st1 := by
  obtain ⟨a, b, s, pc, pc1, hw, hw1, hm, hcap, hcl, herr, _, hcase⟩ :=
    stepWorker_shape dl d st st1 j h
  obtain ⟨i1, i2, i3, i4, i5, i6, i7, i8, i9⟩ := inv
  rw [hw] at i1 i2 i4 i6
  simp only [List.filter_append, List.filter_cons, List.length_append, List.map_append,
    List.map_cons, List.flatMap_append, List.flatMap_cons] at i1 i2 i4 i6
  have hsongs : st1.workers.map Prod.fst ++ st1.main.remaining = p.Songs := by
    rw [hw1, hm, ← i4]; simp
  have hclosed : st1.closed = true ↔ (st1.main = MainPC.ranging ∨ st1.main = MainPC.returned) := by
    rw [hcl, hm]; exact i7
  have hperm : ∀ x : DownloadError,
      (st.errors ++ st.errorChan).Perm (a.flatMap sentBy ++ b.flatMap sentBy) →
      (st.errors ++ (st.errorChan ++ [x])).Perm
        (a.flatMap sentBy ++ (x :: b.flatMap sentBy)) := by
    intro x hp
    rw [← List.append_assoc]
    exact (hp.append_right [x]).trans (by
      rw [List.append_assoc]
      exact List.Perm.append_left _ (List.perm_append_comm))
  rcases hcase with ⟨h1, h2, h3, h4, h5, h6⟩ | ⟨i, err, h1, hi, h2, h4, h5, h6⟩ |
      ⟨i, err, h1, hi, h2, h4, h5, h6⟩ | ⟨i, h1, _, h2, h4, h5, h6⟩ |
      ⟨i, e, h1, _, h2, h4, h5, h6⟩ | ⟨i, e, h1, h2, h4, h5, h6⟩ |
      ⟨e, h1, h2, h3, h4, h5, h6⟩ | ⟨err, h1, h2, h3, h4, h5, h6⟩ |
      ⟨err, h1, h2, h3, h4, h5, h6⟩ <;>
  subst h1 <;> subst h2 <;>
  simp only [workerAlive, workerHoldsSlot, WorkerPC.alive, WorkerPC.holdsSlot, sentBy,
    WorkerPC.finalErr, Option.map, Option.toList, if_true, if_false, List.length_cons,
    List.nil_append, Bool.false_eq_true] at i1 i2 i6 <;>
  refine ⟨?_, ?_, ?_, hsongs, hcap.trans i5, ?_, hclosed, ?_, ?_⟩ <;>
  first
    | (rw [hm, h5]; exact i8)
    | (rw [hm, h6]; exact i9)
    | (rw [herr, h6, hw1]
       simp only [List.flatMap_append, List.flatMap_cons, sentBy, WorkerPC.finalErr,
         Option.map, Option.toList, List.nil_append]
       first | exact i6 | exact hperm _ i6)
    | (rw [h5, hw1, i1]
       simp only [List.filter_append, List.filter_cons, List.length_append, workerAlive,
         WorkerPC.alive, if_true, if_false, List.length_cons, Bool.false_eq_true]
       try omega)
    | (rw [h4, hw1, i2]
       simp only [List.filter_append, List.filter_cons, List.length_append, workerHoldsSlot,
         WorkerPC.holdsSlot, if_true, if_false, List.length_cons, Bool.false_eq_true]
       try omega)
    | (rw [h4]; unfold semaphoreCap at *; omega)
    | (intro hx; rw [hm] at hx; have := i8 hx; omega)
    | (intro hx; rw [hm] at hx; have := i8 (Or.inr (Or.inr hx)); omega)

theorem concStep_inv (p : Playlist) (st st1 : ConcState W) (a : Option Nat)
    (inv : ConcInv p st) (h : concStep dl d st a = some st1) : ConcInv p st1 := by
  cases a with
  | none => exact stepMain_inv p st st1 inv h
  | some j => exact stepWorker_inv dl d p st st1 j inv h

/-- An invariant of the steps holds after each run. -/
theorem concRun_induct (P : ConcState W → Prop)
    (hstep : ∀ st st1 a, P st → concStep dl d st a = some st1 → P st1)
    (sched : List (Option Nat)) :
    ∀ st st1, P st → concRun dl d st sched = some st1 → P st1 := by
  induction sched with
  | nil => intro st st1 hP h; simp [concRun] at h; subst h; exact hP
  | cons a rest ih =>
    intro st st1 hP h
    simp only [concRun] at h
    rcases hs : concStep dl d st a with _ | st2
    · rw [hs] at h; simp at h
    · rw [hs] at h
      exact ih st2 st1 (hstep st st2 a hP hs) h

theorem concRun_inv (p : Playlist) (w : W) (sched : List (Option Nat)) (st : ConcState W)
    (h : concRun dl d (concInit p w) sched = some st) : ConcInv p st :=
  concRun_induct dl d (ConcInv p) (fun st st1 a => concStep_inv dl d p st st1 a) sched
    (concInit p w) st (concInit_inv p w) h

theorem filter_length_le_of_imp {α : Type} (q r : α → Bool) (h : ∀ x, q x = true → r x = true)
    (l : List α) : (l.filter q).length ≤ (l.filter r).length := by
  induction l with
  | nil => simp
  | cons x xs ih =>
    simp only [List.filter_cons]
    by_cases hq : q x = true
    · simp [hq, h x hq, ih]
    · simp only [hq, if_false, Bool.false_eq_true]
      split_ifs
      · simp only [List.length_cons]; omega
      · exact ih

theorem inRetry_holdsSlot (g : Song × WorkerPC) (h : workerInRetry g = true) :
    workerHoldsSlot g = true := by
  obtain ⟨s, pc⟩ := g
  cases pc <;> simp_all [workerInRetry, workerHoldsSlot, WorkerPC.inRetry, WorkerPC.holdsSlot]

theorem inCall_inRetry (g : Song × WorkerPC) (h : workerInCall g = true) :
    workerInRetry g = true := by
  obtain ⟨s, pc⟩ := g
  cases pc <;> simp_all [workerInRetry, workerInCall, WorkerPC.inRetry, WorkerPC.inCall]

theorem sentBy_atSend_length (l : List (Song × WorkerPC)) :
    (l.flatMap sentBy).length + (l.filter workerAtSend).length ≤ l.length := by
  induction l with
  | nil => simp
  | cons g gs ih =>
    obtain ⟨s, pc⟩ := g
    simp only [List.flatMap_cons, List.filter_cons, List.length_append, List.length_cons]
    cases pc with
    | release err =>
      cases err <;>
      simp only [sentBy, workerAtSend, WorkerPC.finalErr, WorkerPC.atSend, Option.map,
        Option.toList, List.length_nil, List.length_cons, if_true, if_false,
        Bool.false_eq_true] <;> omega
    | finishing err =>
      cases err <;>
      simp only [sentBy, workerAtSend, WorkerPC.finalErr, WorkerPC.atSend, Option.map,
        Option.toList, List.length_nil, List.length_cons, if_true, if_false,
        Bool.false_eq_true] <;> omega
    | exited err =>
      cases err <;>
      simp only [sentBy, workerAtSend, WorkerPC.finalErr, WorkerPC.atSend, Option.map,
        Option.toList, List.length_nil, List.length_cons, if_true, if_false,
        Bool.false_eq_true] <;> omega
    | _ =>
      simp only [sentBy, workerAtSend, WorkerPC.finalErr, WorkerPC.atSend, Option.map,
        Option.toList, List.length_nil, List.length_cons, if_true, if_false,
        Bool.false_eq_true]
      omega

theorem exists_of_filter_pos {α : Type} (q : α → Bool) (l : List α)
    (h : 0 < (l.filter q).length) : ∃ (j : Nat) (x : α), l[j]? = some x ∧ q x = true := by
  obtain ⟨x, hx⟩ := List.exists_mem_of_length_pos h
  rw [List.mem_filter] at hx
  obtain ⟨j, hj⟩ := List.getElem?_of_mem hx.1
  exact ⟨j, x, hj, hx.2⟩

theorem filter_pos_of_getElem? {α : Type} (q : α → Bool) (l : List α) (j : Nat) (x : α)
    (hj : l[j]? = some x) (hq : q x = true) : 0 < (l.filter q).length := by
  apply List.length_pos_of_mem (a := x)
  rw [List.mem_filter]
  exact ⟨List.getElem?_mem hj, hq⟩

/-- While the WaitGroup counter is positive, some goroutine can take a step. -/
theorem worker_progress (p : Playlist) (st : ConcState W) (inv : ConcInv p st)
    (hwg : 0 < st.wg) : ∃ j st1, stepWorker dl d st j = some st1 := by
  by_cases hsem : 0 < st.semaphore
  · rw [inv.sem_eq] at hsem
    obtain ⟨j, ⟨s, pc⟩, hj, hq⟩ := exists_of_filter_pos _ _ hsem
    have hsem' : 0 < st.semaphore := by rw [inv.sem_eq]; exact hsem
    refine ⟨j, ?_⟩
    cases pc with
    | acquire => simp [workerHoldsSlot, WorkerPC.holdsSlot] at hq
    | loop i err =>
      by_cases hi : i < 3 <;> simp [stepWorker, hj, hi]
    | calling i =>
      rcases hdl : dl (videoURLOf s) d st.world with ⟨o, w1⟩
      cases o <;> simp [stepWorker, hj, hdl]
    | sleeping i e => simp [stepWorker, hj]
    | send e =>
      have h1 := sentBy_atSend_length st.workers
      have h2 := filter_pos_of_getElem? workerAtSend st.workers j (s, WorkerPC.send e) hj rfl
      have h3 := inv.sent.length_eq
      have h4 := congrArg List.length inv.songs
      simp only [List.length_append, List.length_map] at h3 h4
      have h5 := inv.cap
      have hlt : st.errorChan.length < st.errorChanCap := by omega
      simp [stepWorker, hj, hlt]
    | release err => simp [stepWorker, hj, hsem']
    | finishing err => simp [workerHoldsSlot, WorkerPC.holdsSlot] at hq
    | exited err => simp [workerHoldsSlot, WorkerPC.holdsSlot] at hq
  · have hwg' := hwg
    rw [inv.wg_eq] at hwg'
    obtain ⟨j, ⟨s, pc⟩, hj, hq⟩ := exists_of_filter_pos _ _ hwg'
    have hno : ¬ workerHoldsSlot (s, pc) = true := by
      intro hh
      have := filter_pos_of_getElem? workerHoldsSlot st.workers j (s, pc) hj hh
      rw [← inv.sem_eq] at this
      exact hsem this
    refine ⟨j, ?_⟩
    cases pc with
    | acquire =>
      have : st.semaphore < semaphoreCap := by unfold semaphoreCap; omega
      simp [stepWorker, hj, this]
    | finishing err => simp [stepWorker, hj, hwg]
    | exited err => simp [workerAlive, WorkerPC.alive] at hq
    | _ => simp [workerHoldsSlot, WorkerPC.holdsSlot] at hno

/-- In a reachable state that is not the return, some goroutine can take a step. -/
theorem conc_progress (p : Playlist) (st : ConcState W) (inv : ConcInv p st)
    (hnr : st.main ≠ MainPC.returned) : ∃ a st1, concStep dl d st a = some st1 := by
  rcases hm : st.main with rest | _ | _ | _ | _
  · refine ⟨none, ?_⟩
    cases rest <;> simp [concStep, stepMain, hm]
  · by_cases hwg : st.wg = 0
    · refine ⟨none, ?_⟩
      simp [concStep, stepMain, hm, hwg]
    · obtain ⟨j, st1, h⟩ := worker_progress dl d p st inv (by omega)
      exact ⟨some j, st1, h⟩
  · refine ⟨none, ?_⟩
    simp [concStep, stepMain, hm]
  · refine ⟨none, ?_⟩
    have hcl := inv.closed_iff.mpr (Or.inl hm)
    rcases hc : st.errorChan with _ | ⟨e, rest⟩ <;> simp [concStep, stepMain, hm, hc, hcl]
  · exact absurd hm hnr

/-- With outcomes that depend on the song only, each step keeps the variables of the
goroutines as `WorkerOK` says. -/
theorem concStep_workerOK (w0 : W)
    (hdl : ∀ (u : String) (w1 w2 : W), (dl u d w1).1 = (dl u d w2).1)
    (st st1 : ConcState W) (a : Option Nat)
    (hok : ∀ g ∈ st.workers, WorkerOK (fun s => (dl (videoURLOf s) d w0).1) g)
    (h : concStep dl d st a = some st1) :
    ∀ g ∈ st1.workers, WorkerOK (fun s => (dl (videoURLOf s) d w0).1) g := by
  cases a with
  | none =>
    obtain ⟨_, _, hcase⟩ := stepMain_shape st st1 h
    rcases hcase with ⟨song, rest, _, _, _, h4, _⟩ | ⟨_, _, _, h4, _⟩ |
      ⟨_, _, _, _, h4, _⟩ | ⟨_, _, _, h4, _⟩ |
      ⟨err, rest, _, _, _, _, h4, _⟩ | ⟨_, _, _, _, _, h4, _⟩
    · intro g hg
      rw [h4, List.mem_append] at hg
      rcases hg with hg | hg
      · exact hok g hg
      · simp only [List.mem_singleton] at hg
        subst hg
        simp [WorkerOK]
    all_goals (rw [h4]; exact hok)
  | some j =>
    obtain ⟨a, b, s, pc, pc1, hw, hw1, _, _, _, _, _, hcase⟩ :=
      stepWorker_shape dl d st st1 j h
    have hold : WorkerOK (fun s => (dl (videoURLOf s) d w0).1) (s, pc) :=
      hok (s, pc) (by rw [hw]; simp)
    have hnew : WorkerOK (fun s => (dl (videoURLOf s) d w0).1) (s, pc1) := by
      rcases hcase with ⟨h1, h2, _⟩ | ⟨i, err, h1, hi, h2, _⟩ |
        ⟨i, err, h1, hi, h2, _⟩ | ⟨i, h1, hc, h2, _⟩ |
        ⟨i, e, h1, hc, h2, _⟩ | ⟨i, e, h1, h2, _⟩ |
        ⟨e, h1, h2, _⟩ | ⟨err, h1, h2, _⟩ | ⟨err, h1, h2, _⟩ <;>
      subst h1 <;> subst h2 <;> simp only [WorkerOK] at hold ⊢
      · exact Or.inl trivial
      · rcases hold with h0 | ⟨he, e, hoe⟩
        · omega
        · rw [he, hoe]; rfl
      · rw [hdl _ w0 st.world, hc]; rfl
      · rw [hdl _ w0 st.world, hc]
      · exact Or.inr ⟨hold.symm, e, hold⟩
      · exact hold
      · exact hold
      · exact hold
    intro g hg
    rw [hw1] at hg
    simp only [List.mem_append, List.mem_cons] at hg
    rcases hg with hg | hg | hg
    · exact hok g (by rw [hw]; simp [hg])
    · rw [hg]; exact hnew
    · exact hok g (by rw [hw]; simp [hg])

/-- With outcomes that depend on the song only, the sequential loop returns, in input order,
the retry-exhausted failure of each song whose download fails. -/
theorem sequentialLoop_stateless (w0 : W)
    (hdl : ∀ (u : String) (w1 w2 : W), (dl u d w1).1 = (dl u d w2).1) (songs : List Song) :
    ∀ w : W, (sequentialLoop dl d songs [] w).val =
      songs.flatMap (fun s =>
        ((retryOutcome (dl (videoURLOf s) d w0).1).map (DownloadError.mk s)).toList) := by
  induction songs with
  | nil => intro w; simp [sequentialLoop]
  | cons s rest ih =>
    intro w
    obtain ⟨c1, _⟩ := sequentialLoop_cons dl d s rest w
    obtain ⟨r1, _⟩ := retry_three dl d s w
    rw [c1, r1, ih, List.flatMap_cons]
    congr 2
    unfold exhaustedAt
    simp only [nthCall]
    rw [hdl _ _ w0, hdl _ (worldBefore dl (videoURLOf s) d w 1) w0,
      hdl _ (worldBefore dl (videoURLOf s) d w 2) w0]
    cases (dl (videoURLOf s) d w0).1 with
    | none => rfl
    | some e => rfl

/-- When all goroutines have returned, each with the variable `err` at `res` of its song, what
they have sent is the failure record of each song with a non-nil `res`. -/
theorem sent_of_all_exited (res : Song → Option GoError) (l : List (Song × WorkerPC))
    (hok : ∀ g ∈ l, ∀ err, g.2 = WorkerPC.exited err → err = res g.1)
    (hex : l.filter workerAlive = []) :
    l.flatMap sentBy =
      (l.map Prod.fst).flatMap (fun s => ((res s).map (DownloadError.mk s)).toList) := by
  induction l with
  | nil => rfl
  | cons g gs ih =>
    obtain ⟨s, pc⟩ := g
    have hg := hok (s, pc) (by simp)
    simp only [List.filter_cons] at hex
    cases pc with
    | exited err =>
      simp only [workerAlive, WorkerPC.alive, if_false, Bool.false_eq_true] at hex
      have herr := hg err rfl
      simp only [List.flatMap_cons, List.map_cons]
      rw [ih (fun g hg' => hok g (by simp [hg'])) hex]
      simp [sentBy, WorkerPC.finalErr, herr]
    | _ => simp [workerAlive, WorkerPC.alive] at hex

end Lemmas

section Scripted

variable {W L : Type} (dl : String → String → W → Option GoError × W) (d : String)
  (view : W → String → L) (o : String → L → Option GoError × L)

/-- The calling goroutine does not touch the world. -/
theorem stepMain_world (st st1 : ConcState W) (h : stepMain st = some st1) :
    st1.world = st.world := by
  unfold stepMain at h
  split at h
  · cases h; rfl
  · cases h; rfl
  · split_ifs at h; cases h; rfl
  · cases h; rfl
  · split at h
    · cases h; rfl
    · split_ifs at h; cases h; rfl
  · cases h

/-- In a list without duplicates the element at a position differs from all others. -/
theorem ne_of_nodup_middle {α : Type} (x z : List α) (y t : α) (h : (x ++ y :: z).Nodup)
    (ht : t ∈ x ++ z) : t ≠ y := by
  intro hty
  subst hty
  rw [List.nodup_append] at h
  obtain ⟨_, h2, h3⟩ := h
  rw [List.mem_append] at ht
  rcases ht with ht | ht
  · exact h3 ht (by simp)
  · rw [List.nodup_cons] at h2
    exact h2.1 ht

/-- Consecutive calls for one video move its local state as `localAfter` says and leave the
local states of the other videos alone. -/
theorem view_worldBefore
    (hown : ∀ (u : String) (w : W), view (dl u d w).2 u = (o u (view w u)).2)
    (hother : ∀ (u u' : String) (w : W), u' ≠ u → view (dl u d w).2 u' = view w u')
    (u : String) (w : W) (k : Nat) :
    view (worldBefore dl u d w k) u = localAfter o u (view w u) k ∧
    ∀ u', u' ≠ u → view (worldBefore dl u d w k) u' = view w u' := by
  induction k with
  | zero => exact ⟨rfl, fun _ _ => rfl⟩
  | succ k ih =>
    obtain ⟨ih1, ih2⟩ := ih
    refine ⟨?_, ?_⟩
    · simp only [worldBefore, localAfter]
      rw [hown, ih1]
    · intro u' hu
      simp only [worldBefore]
      rw [hother u u' _ hu, ih2 u' hu]

/-- The outcome of call number `k` of a run of consecutive calls for one video. -/
theorem nthCall_outcome
    (hout : ∀ (u : String) (w : W), (dl u d w).1 = (o u (view w u)).1)
    (hown : ∀ (u : String) (w : W), view (dl u d w).2 u = (o u (view w u)).2)
    (hother : ∀ (u u' : String) (w : W), u' ≠ u → view (dl u d w).2 u' = view w u')
    (u : String) (w : W) (k : Nat) :
    (nthCall dl u d w k).1 = outcomeAt o u (view w u) k := by
  unfold nthCall outcomeAt
  rw [hout, (view_worldBefore dl d view o hown hother u w k).1]

/-- The local states of the other videos after call number `k` for one video. -/
theorem nthCall_other
    (hown : ∀ (u : String) (w : W), view (dl u d w).2 u = (o u (view w u)).2)
    (hother : ∀ (u u' : String) (w : W), u' ≠ u → view (dl u d w).2 u' = view w u')
    (u u' : String) (hu : u' ≠ u) (w : W) (k : Nat) :
    view (nthCall dl u d w k).2 u' = view w u' := by
  unfold nthCall
  rw [hother u u' _ hu, (view_worldBefore dl d view o hown hother u w k).2 u' hu]

/-- The failure record of a song, in terms of the script. -/
theorem exhaustedAt_scripted
    (hout : ∀ (u : String) (w : W), (dl u d w).1 = (o u (view w u)).1)
    (hown : ∀ (u : String) (w : W), view (dl u d w).2 u = (o u (view w u)).2)
    (hother : ∀ (u u' : String) (w : W), u' ≠ u → view (dl u d w).2 u' = view w u')
    (s : Song) (w : W) :
    exhaustedAt dl d s w =
      (scriptedResult o (videoURLOf s) (view w (videoURLOf s))).map (DownloadError.mk s) := by
  unfold exhaustedAt scriptedResult
  rw [nthCall_outcome dl d view o hout hown hother, nthCall_outcome dl d view o hout hown hother,
    nthCall_outcome dl d view o hout hown hother]
  rcases outcomeAt o (videoURLOf s) (view w (videoURLOf s)) 0 with _ | e0 <;>
  rcases outcomeAt o (videoURLOf s) (view w (videoURLOf s)) 1 with _ | e1 <;>
  rcases outcomeAt o (videoURLOf s) (view w (videoURLOf s)) 2 with _ | e2 <;> rfl

/-- A song leaves the local states of the other videos alone. -/
theorem worldAfterSong_other
    (hown : ∀ (u : String) (w : W), view (dl u d w).2 u = (o u (view w u)).2)
    (hother : ∀ (u u' : String) (w : W), u' ≠ u → view (dl u d w).2 u' = view w u')
    (s : Song) (u' : String) (hu : u' ≠ videoURLOf s) (w : W) :
    view (worldAfterSong dl d s w) u' = view w u' := by
  unfold worldAfterSong
  split <;> exact nthCall_other dl d view o hown hother (videoURLOf s) u' hu w _

/-- With scripted outcomes and no video twice in the list, the sequential loop returns, in
input order, the scripted failure of each song. -/
theorem sequentialLoop_scripted
    (hout : ∀ (u : String) (w : W), (dl u d w).1 = (o u (view w u)).1)
    (hown : ∀ (u : String) (w : W), view (dl u d w).2 u = (o u (view w u)).2)
    (hother : ∀ (u u' : String) (w : W), u' ≠ u → view (dl u d w).2 u' = view w u')
    (songs : List Song) (hnd : (songs.map videoURLOf).Nodup) :
    ∀ w : W, (sequentialLoop dl d songs [] w).val =
      songs.flatMap (fun s =>
        ((scriptedResult o (videoURLOf s) (view w (videoURLOf s))).map
          (DownloadError.mk s)).toList) := by
  induction songs with
  | nil => intro w; simp [sequentialLoop]
  | cons s rest ih =>
    intro w
    rw [List.map_cons, List.nodup_cons] at hnd
    obtain ⟨c1, _⟩ := sequentialLoop_cons dl d s rest w
    obtain ⟨r1, r2⟩ := retry_three dl d s w
    rw [c1, r1, r2, ih hnd.2, List.flatMap_cons,
      exhaustedAt_scripted dl d view o hout hown hother]
    congr 1
    apply List.flatMap_congr
    intro s' hs'
    have hne : videoURLOf s' ≠ videoURLOf s := by
      intro heq
      exact hnd.1 (heq ▸ List.mem_map_of_mem videoURLOf hs')
    rw [worldAfterSong_other dl d view o hown hother s (videoURLOf s') hne w]


/-- `WorkerScripted` looks at the world only through the local state of the video of the
goroutine. -/
theorem WorkerScripted_congr (w0 w1 w2 : W) (g : Song × WorkerPC)
    (hv : view w2 (videoURLOf g.1) = view w1 (videoURLOf g.1))
    (h : WorkerScripted view o w0 w1 g) : WorkerScripted view o w0 w2 g := by
  obtain ⟨s, pc⟩ := g
  cases pc <;> simp only [WorkerScripted] at h ⊢ <;> first | exact h | (rw [hv]; exact h)

/-- The scripted result when the first failure-free call is call number `i`. -/
theorem scriptedResult_of_success (u : String) (l0 : L) (i : Nat) (hi : i < 3)
    (hs : outcomeAt o u l0 i = none) : scriptedResult o u l0 = none := by
  unfold scriptedResult
  have hi' : i = 0 ∨ i = 1 ∨ i = 2 := by omega
  rcases hi' with rfl | rfl | rfl
  · rw [hs]
  · rw [hs]; cases outcomeAt o u l0 0 <;> rfl
  · rw [hs]; cases outcomeAt o u l0 0 <;> cases outcomeAt o u l0 1 <;> rfl

/-- The scripted result when the three calls fail. -/
theorem scriptedResult_of_failures (u : String) (l0 : L)
    (hf : ∀ k, k < 3 → outcomeAt o u l0 k ≠ none) :
    scriptedResult o u l0 =
      some (errorfW ("failed after " ++ fmtD 3 ++ " attempts: ") (outcomeAt o u l0 2)) := by
  unfold scriptedResult
  obtain ⟨e0, h0⟩ := Option.ne_none_iff_exists'.mp (hf 0 (by omega))
  obtain ⟨e1, h1⟩ := Option.ne_none_iff_exists'.mp (hf 1 (by omega))
  obtain ⟨e2, h2⟩ := Option.ne_none_iff_exists'.mp (hf 2 (by omega))
  rw [h0, h1, h2]

/-- With scripted outcomes and no video twice in the playlist, each step keeps the variables
of the goroutines and the local states of the videos as `WorkerScripted` says. -/
theorem concStep_scripted (p : Playlist) (w0 : W)
    (hout : ∀ (u : String) (w : W), (dl u d w).1 = (o u (view w u)).1)
    (hown : ∀ (u : String) (w : W), view (dl u d w).2 u = (o u (view w u)).2)
    (hother : ∀ (u u' : String) (w : W), u' ≠ u → view (dl u d w).2 u' = view w u')
    (hnd : (p.Songs.map videoURLOf).Nodup)
    (st st1 : ConcState W) (a : Option Nat) (inv : ConcInv p st)
    (hok : (∀ g ∈ st.workers, WorkerScripted view o w0 st.world g) ∧
      ∀ s ∈ st.main.remaining, view st.world (videoURLOf s) = view w0 (videoURLOf s))
    (h : concStep dl d st a = some st1) :
    (∀ g ∈ st1.workers, WorkerScripted view o w0 st1.world g) ∧
      ∀ s ∈ st1.main.remaining, view st1.world (videoURLOf s) = view w0 (videoURLOf s) := by
  obtain ⟨hok1, hok2⟩ := hok
  cases a with
  | none =>
    have hworld := stepMain_world st st1 h
    obtain ⟨_, _, hcase⟩ := stepMain_shape st st1 h
    rw [hworld]
    rcases hcase with ⟨song, rest, h1, h2, _, h4, _⟩ | ⟨h1, h2, _, h4, _⟩ |
      ⟨h1, _, h2, _, h4, _⟩ | ⟨h1, h2, _, h4, _⟩ |
      ⟨err, rest, h1, _, h2, _, h4, _⟩ | ⟨h1, _, _, h2, _, h4, _⟩
    · rw [h1] at hok2
      simp only [MainPC.remaining] at hok2
      refine ⟨?_, ?_⟩
      · intro g hg
        rw [h4, List.mem_append] at hg
        rcases hg with hg | hg
        · exact hok1 g hg
        · simp only [List.mem_singleton] at hg
          subst hg
          simp only [WorkerScripted]
          exact hok2 song (by simp)
      · intro s hs
        rw [h2] at hs
        simp only [MainPC.remaining] at hs
        exact hok2 s (by simp [hs])
    all_goals
      refine ⟨by rw [h4]; exact hok1, ?_⟩
      intro s hs
      rw [h2] at hs
      simp only [MainPC.remaining] at hs
      exact absurd hs (List.not_mem_nil s)
  | some j =>
    obtain ⟨a, b, s, pc, pc1, hw, hw1, hm, _, _, _, hworld, hcase⟩ :=
      stepWorker_shape dl d st st1 j h
    have hsongs := inv.songs
    rw [hw] at hsongs
    have hnd' : ((a.map Prod.fst).map videoURLOf ++ videoURLOf s ::
        ((b.map Prod.fst).map videoURLOf ++ st.main.remaining.map videoURLOf)).Nodup := by
      rw [← hsongs] at hnd
      simpa using hnd
    have hframe : ∀ u', u' ∈ (a.map Prod.fst).map videoURLOf ++
        ((b.map Prod.fst).map videoURLOf ++ st.main.remaining.map videoURLOf) →
        view st1.world u' = view st.world u' := by
      intro u' hu'
      have hne := ne_of_nodup_middle _ _ _ u' hnd' hu'
      rw [hworld]
      split_ifs
      · exact hother _ _ _ hne
      · rfl
    have hold : WorkerScripted view o w0 st.world (s, pc) := hok1 (s, pc) (by rw [hw]; simp)
    refine ⟨?_, ?_⟩
    · intro g hg
      rw [hw1] at hg
      simp only [List.mem_append, List.mem_cons] at hg
      have hrest : g ∈ a ∨ g ∈ b → WorkerScripted view o w0 st1.world g := by
        intro hab
        have hg0 : g ∈ st.workers := by
          rw [hw]; rcases hab with hab | hab <;> simp [hab]
        apply WorkerScripted_congr view o w0 st.world st1.world g _ (hok1 g hg0)
        apply hframe
        rcases hab with hab | hab
        · simp only [List.mem_append, List.mem_map]
          exact Or.inl ⟨g.1, ⟨g, hab, rfl⟩, rfl⟩
        · simp only [List.mem_append, List.mem_map]
          exact Or.inr (Or.inl ⟨g.1, ⟨g, hab, rfl⟩, rfl⟩)
      rcases hg with hg | hg | hg
      · exact hrest (Or.inl hg)
      · subst hg
        have hv : st1.world = if pc.inCall then (dl (videoURLOf s) d st.world).2
            else st.world := hworld
        rcases hcase with ⟨h1, h2, _⟩ | ⟨i, err, h1, hi, h2, _⟩ |
          ⟨i, err, h1, hi, h2, _⟩ | ⟨i, h1, hc, h2, _⟩ |
          ⟨i, e, h1, hc, h2, _⟩ | ⟨i, e, h1, h2, _⟩ |
          ⟨e, h1, h2, _⟩ | ⟨err, h1, h2, _⟩ | ⟨err, h1, h2, _⟩ <;>
        subst h1 <;> subst h2 <;>
        simp only [WorkerPC.inCall, if_true, if_false, Bool.false_eq_true] at hv <;>
        simp only [WorkerScripted] at hold ⊢
        · rw [hv]
          exact ⟨hold, fun k hk => absurd hk (Nat.not_lt_zero k), by omega, Or.inl trivial⟩
        · rw [hv]
          exact ⟨hold.1, hold.2.1, hi⟩
        · obtain ⟨_, hf, hle, herr⟩ := hold
          have hi3 : i = 3 := by omega
          subst hi3
          rw [scriptedResult_of_failures o _ _ hf]
          rcases herr with h0 | h0
          · omega
          · rw [h0]
        · obtain ⟨hview, hf, hlt⟩ := hold
          rw [hout, hview] at hc
          exact (scriptedResult_of_success o _ _ i hlt hc).symm
        · obtain ⟨hview, hf, hlt⟩ := hold
          rw [hout, hview] at hc
          refine ⟨?_, hf, hlt, hc⟩
          rw [hv, hown, hview]
          rfl
        · obtain ⟨hview, hf, hlt, hc⟩ := hold
          rw [hv]
          refine ⟨hview, ?_, by omega, Or.inr ?_⟩
          · intro k hk
            by_cases hki : k < i
            · exact hf k hki
            · have : k = i := by omega
              rw [this, hc]
              simp
          · simp [hc]
        · exact hold
        · exact hold
        · exact hold
      · exact hrest (Or.inr hg)
    · intro s' hs'
      rw [hm] at hs'
      rw [hframe _ (by
        simp only [List.mem_append, List.mem_map]
        exact Or.inr (Or.inr ⟨s', hs', rfl⟩))]
      exact hok2 s' hs'

end Scripted

section Extend

variable {W : Type} (dl : String → String → W → Option GoError × W) (d : String)

/-- A run along a concatenated schedule is the run along the first part followed by the run
along the second. -/
theorem concRun_append (s1 s2 : List (Option Nat)) :
    ∀ st : ConcState W, concRun dl d st (s1 ++ s2) =
      (concRun dl d st s1).bind (fun st1 => concRun dl d st1 s2) := by
  induction s1 with
  | nil => intro st; rfl
  | cons a rest ih =>
    intro st
    simp only [List.cons_append, concRun]
    cases concStep dl d st a with
    | none => rfl
    | some st1 => exact ih st1

/-- From a state that satisfies the invariant, the goroutines can run on until the calling
goroutine is at its return. -/
theorem conc_completes (p : Playlist) (n : Nat) :
    ∀ st : ConcState W, ConcInv p st → concMeasure st ≤ n →
      ∃ rest st1, concRun dl d st rest = some st1 ∧ st1.main = MainPC.returned := by
  induction n with
  | zero =>
    intro st inv hm
    by_cases hret : st.main = MainPC.returned
    · exact ⟨[], st, rfl, hret⟩
    · obtain ⟨a, st1, hs⟩ := conc_progress dl d p st inv hret
      have := concStep_measure dl d st st1 a hs
      omega
  | succ n ih =>
    intro st inv hm
    by_cases hret : st.main = MainPC.returned
    · exact ⟨[], st, rfl, hret⟩
    · obtain ⟨a, st1, hs⟩ := conc_progress dl d p st inv hret
      have hlt := concStep_measure dl d st st1 a hs
      obtain ⟨rest, st2, hr, hm2⟩ := ih st1 (concStep_inv dl d p st st1 a inv hs) (by omega)
      refine ⟨a :: rest, st2, ?_, hm2⟩
      simp only [concRun, hs]
      exact hr

end Extend

/-! ### The claims -/

section Claims

variable {W : Type} (dl : String → String → W → Option GoError × W)

/-- C1: when each of the first `N` calls of the download fails (`N ≥ 1`),
`downloadYtVideoWithRetry` with `maxRetries = N` calls the download exactly `N` times and
returns an error whose message is "failed after N attempts: " followed by the message of the
error of the `N`-th call, and which wraps that error. -/
theorem downloadYtVideoWithRetry_exhaustion (u d : String) (N : Nat) (hN : 1 ≤ N) (w : W)
    (hfail : ∀ k, k < N → (nthCall dl u d w k).1 ≠ none) :
    callCount (downloadYtVideoWithRetry dl u d N w).trace = N ∧
    ∃ last err, (nthCall dl u d w (N - 1)).1 = some last ∧
      (downloadYtVideoWithRetry dl u d N w).val = some err ∧
      err.Error = "failed after " ++ toString N ++ " attempts: " ++ last.Error ∧
      err.Unwrap = some last := by
  have hN0 : N ≠ 0 := by omega
  have h := retryLoop_allFail dl u d (N : Int) N 0 none w hfail
  obtain ⟨hv, _, hc, _, _⟩ := h
  have htn : ((N : Int)).toNat = N := by simp
  unfold downloadYtVideoWithRetry
  rw [htn]
  refine ⟨hc, ?_⟩
  obtain ⟨last, hlast⟩ : ∃ last, (nthCall dl u d w (N - 1)).1 = some last :=
    Option.ne_none_iff_exists'.mp (hfail (N - 1) (by omega))
  refine ⟨last, errorfW ("failed after " ++ fmtD N ++ " attempts: ") (some last), hlast,
    ?_, rfl, rfl⟩
  rw [hv, if_neg hN0, hlast]

theorem downloadYtVideoWithRetry_exhaustion_witness :
    callCount (downloadYtVideoWithRetry countingFailure "u" "out" (3 : Nat) 0).trace = 3 ∧
    ∃ last err, (nthCall countingFailure "u" "out" 0 (3 - 1)).1 = some last ∧
      (downloadYtVideoWithRetry countingFailure "u" "out" (3 : Nat) 0).val = some err ∧
      err.Error = "failed after " ++ toString 3 ++ " attempts: " ++ last.Error ∧
      err.Unwrap = some last :=
  downloadYtVideoWithRetry_exhaustion countingFailure "u" "out" 3 (by decide) 0
    (by intro k _; simp [nthCall, countingFailure])

/-- C2: when the download fails on its first `M` calls and succeeds on call `M + 1`, with
`M < N`, `downloadYtVideoWithRetry` with `maxRetries = N` returns nil and has called the
download exactly `M + 1` times; and in `sequentialDownload` (where `N` is 3) a song whose
download behaves so in the world it starts in adds no entry to the failure list: the list is
the one of the songs before it followed by the one of the songs after it. -/
theorem downloadYtVideoWithRetry_success_within_bound (u d : String) (N M : Nat) (hM : M < N)
    (w : W) (hfail : ∀ k, k < M → (nthCall dl u d w k).1 ≠ none)
    (hsucc : (nthCall dl u d w M).1 = none) :
    (downloadYtVideoWithRetry dl u d N w).val = none ∧
    callCount (downloadYtVideoWithRetry dl u d N w).trace = M + 1 ∧
    (downloadYtVideoWithRetry dl u d N w).world = (nthCall dl u d w M).2 ∧
    ∀ (s : Song) (pre post : List Song) (pid pname : String) (w0 : W),
      videoURLOf s = u → N = 3 →
      (sequentialDownload dl (Playlist.mk pid pname pre) d w0).world = w →
      (sequentialDownload dl (Playlist.mk pid pname (pre ++ s :: post)) d w0).val =
        (sequentialDownload dl (Playlist.mk pid pname pre) d w0).val ++
        (sequentialDownload dl (Playlist.mk pid pname post) d (nthCall dl u d w M).2).val := by
  have htn : ((N : Int)).toNat = N := by simp
  obtain ⟨hv, hw, hc⟩ := retryLoop_succeeds dl u d (N : Int) M N 0 none w hM hfail hsucc
  refine ⟨?_, ?_, ?_, ?_⟩
  · unfold downloadYtVideoWithRetry; rw [htn]; exact hv
  · unfold downloadYtVideoWithRetry; rw [htn]; exact hc
  · unfold downloadYtVideoWithRetry; rw [htn]; exact hw
  · intro s pre post pid pname w0 hu hN3 hpre
    subst hN3
    simp only [sequentialDownload] at hpre ⊢
    obtain ⟨a1, _⟩ := sequentialLoop_append dl d pre (s :: post) w0
    obtain ⟨c1, _⟩ := sequentialLoop_cons dl d s post (sequentialLoop dl d pre [] w0).world
    have hv3 : (downloadYtVideoWithRetry dl (videoURLOf s) d 3 w).val = none := by
      rw [hu]; unfold downloadYtVideoWithRetry; exact hv
    have hw3 : (downloadYtVideoWithRetry dl (videoURLOf s) d 3 w).world =
        (nthCall dl u d w M).2 := by
      rw [hu]; unfold downloadYtVideoWithRetry; exact hw
    rw [a1, c1, hpre, hv3, hw3]
    simp

theorem downloadYtVideoWithRetry_success_within_bound_witness :
    (downloadYtVideoWithRetry failsThenSucceeds (videoURLOf (Song.mk "a" "b" "x")) "out"
      (3 : Nat) 2).val = none ∧
    callCount (downloadYtVideoWithRetry failsThenSucceeds (videoURLOf (Song.mk "a" "b" "x"))
      "out" (3 : Nat) 2).trace = 2 + 1 ∧
    (downloadYtVideoWithRetry failsThenSucceeds (videoURLOf (Song.mk "a" "b" "x")) "out"
      (3 : Nat) 2).world =
        (nthCall failsThenSucceeds (videoURLOf (Song.mk "a" "b" "x")) "out" 2 2).2 ∧
    (sequentialDownload failsThenSucceeds
        (Playlist.mk "PL" "n" ([] ++ Song.mk "a" "b" "x" :: [Song.mk "c" "d" "y"])) "out" 2).val =
      (sequentialDownload failsThenSucceeds (Playlist.mk "PL" "n" []) "out" 2).val ++
      (sequentialDownload failsThenSucceeds (Playlist.mk "PL" "n" [Song.mk "c" "d" "y"]) "out"
        (nthCall failsThenSucceeds (videoURLOf (Song.mk "a" "b" "x")) "out" 2 2).2).val ∧
    (sequentialDownload failsThenSucceeds
        (Playlist.mk "PL" "n" [Song.mk "a" "b" "x", Song.mk "c" "d" "y"]) "out" 2).val = [] :=
  have h := downloadYtVideoWithRetry_success_within_bound failsThenSucceeds
    (videoURLOf (Song.mk "a" "b" "x")) "out" 3 2 (by decide) 2
    (by
      intro k hk
      have hk' : k = 0 ∨ k = 1 := by omega
      rcases hk' with rfl | rfl <;> simp [nthCall, worldBefore, failsThenSucceeds])
    (by simp [nthCall, worldBefore, failsThenSucceeds])
  ⟨h.1, h.2.1, h.2.2.1,
    h.2.2.2 (Song.mk "a" "b" "x") [] [Song.mk "c" "d" "y"] "PL" "n" 2 rfl rfl rfl,
    by decide⟩

/-- C3: the slice `sequentialDownload` returns is, in input order and one entry at most per
list position, the failure record of exactly those songs whose download fails on all three
calls in the world the song starts in (the song with its retry-exhausted error); songs with
a successful call among the three contribute nothing, the songs of the result form a
subsequence of the playlist, and an empty playlist gives an empty result. -/
theorem sequentialDownload_exhausted_failures (p : Playlist) (d : String) (w : W) :
    (sequentialDownload dl p d w).val =
      (p.Songs.zip (startWorlds dl d p.Songs w)).filterMap
        (fun x => exhaustedAt dl d x.1 x.2) ∧
    (startWorlds dl d p.Songs w).length = p.Songs.length ∧
    ((sequentialDownload dl p d w).val.map DownloadError.Song).Sublist p.Songs ∧
    (sequentialDownload dl (Playlist.mk p.Id p.Name []) d w).val = [] := by
  have key : ∀ (songs : List Song) (w : W),
      (sequentialLoop dl d songs [] w).val =
        (songs.zip (startWorlds dl d songs w)).filterMap (fun x => exhaustedAt dl d x.1 x.2) ∧
      (startWorlds dl d songs w).length = songs.length ∧
      ((sequentialLoop dl d songs [] w).val.map DownloadError.Song).Sublist songs := by
    intro songs
    induction songs with
    | nil => intro w; simp [sequentialLoop, startWorlds]
    | cons s rest ih =>
      intro w
      obtain ⟨c1, _⟩ := sequentialLoop_cons dl d s rest w
      obtain ⟨r1, r2⟩ := retry_three dl d s w
      obtain ⟨i1, i2, i3⟩ := ih (worldAfterSong dl d s w)
      rw [c1, r1, r2]
      refine ⟨?_, ?_, ?_⟩
      · simp only [startWorlds, List.zip_cons_cons, List.filterMap_cons]
        cases hex : exhaustedAt dl d s w with
        | none => simpa using i1
        | some de => simpa using i1
      · simp [startWorlds, i2]
      · cases hex : exhaustedAt dl d s w with
        | none => simpa using i3.cons s
        | some de =>
          have hs : de.Song = s := by
            unfold exhaustedAt at hex
            split at hex
            · cases hex; rfl
            · cases hex
          simp only [Option.toList, List.singleton_append, List.map_cons, hs]
          exact i3.cons₂ s
  obtain ⟨k1, k2, k3⟩ := key p.Songs w
  exact ⟨k1, k2, k3, rfl⟩

theorem sequentialDownload_exhausted_failures_witness :
    ((sequentialDownload (failsFor urlsAC) playlistABC "out" ()).val =
      (playlistABC.Songs.zip (startWorlds (failsFor urlsAC) "out" playlistABC.Songs ())).filterMap
        (fun x => exhaustedAt (failsFor urlsAC) "out" x.1 x.2) ∧
    (startWorlds (failsFor urlsAC) "out" playlistABC.Songs ()).length =
      playlistABC.Songs.length ∧
    ((sequentialDownload (failsFor urlsAC) playlistABC "out" ()).val.map
      DownloadError.Song).Sublist playlistABC.Songs ∧
    (sequentialDownload (failsFor urlsAC)
      (Playlist.mk playlistABC.Id playlistABC.Name []) "out" ()).val = []) ∧
    (sequentialDownload (failsFor urlsAC) playlistABC "out" ()).val =
      [DownloadError.mk (Song.mk "A" "x" "a")
         (GoError.wrap
           "failed after 3 attempts: unavailable: https://www.youtube.com/watch?v=a"
           (GoError.leaf "unavailable: https://www.youtube.com/watch?v=a")),
       DownloadError.mk (Song.mk "C" "x" "c")
         (GoError.wrap
           "failed after 3 attempts: unavailable: https://www.youtube.com/watch?v=c"
           (GoError.leaf "unavailable: https://www.youtube.com/watch?v=c"))] :=
  ⟨sequentialDownload_exhausted_failures (failsFor urlsAC) playlistABC "out" (), by decide⟩

/-- C4: when the outcome of a call depends only on the song and on the calls made before for
that song (the world holds a local state per video, read by `view`; a call returns what `o`
gives on the local state of its video, replaces that local state and leaves the local states
of the other videos alone), and either no video occurs twice in the playlist or the outcome
does not depend on the local state at all, then every run of `concurrentDownload`, under
every schedule of the goroutines, has at most `17 * K + 4` steps for a playlist of `K` songs
and can be run on until the calling goroutine is at its return, and the slice returned there
is a permutation of the slice `sequentialDownload` returns for the same input. -/
theorem concurrentDownload_perm_sequentialDownload {L : Type} (view : W → String → L)
    (o : String → L → Option GoError × L) (p : Playlist) (d : String) (w : W)
    (hout : ∀ (u : String) (w1 : W), (dl u d w1).1 = (o u (view w1 u)).1)
    (hown : ∀ (u : String) (w1 : W), view (dl u d w1).2 u = (o u (view w1 u)).2)
    (hother : ∀ (u u' : String) (w1 : W), u' ≠ u → view (dl u d w1).2 u' = view w1 u')
    (hnd : (p.Songs.map videoURLOf).Nodup ∨ ∀ (u : String) (l l' : L), (o u l).1 = (o u l').1) :
    (∀ (sched : List (Option Nat)) (st : ConcState W),
      concRun dl d (concInit p w) sched = some st →
        sched.length ≤ 17 * p.Songs.length + 4) ∧
    (∀ (sched : List (Option Nat)) (st : ConcState W),
      concRun dl d (concInit p w) sched = some st →
        ∃ rest errs, concurrentDownload dl p d w (sched ++ rest) = some errs) ∧
    (∀ (sched : List (Option Nat)) (errs : List DownloadError),
      concurrentDownload dl p d w sched = some errs →
        errs.Perm (sequentialDownload dl p d w).val) := by
  refine ⟨?_, ?_, ?_⟩
  · intro sched st h
    have hm := concRun_measure dl d sched (concInit p w) st h
    have h0 : concMeasure (concInit p w) = 17 * p.Songs.length + 4 := by
      simp [concMeasure, concInit, MainPC.weight]
    omega
  · intro sched st h
    obtain ⟨rest, st1, hr, hret⟩ := conc_completes dl d p (concMeasure st) st
      (concRun_inv dl d p w sched st h) (Nat.le_refl _)
    refine ⟨rest, st1.errors, ?_⟩
    unfold concurrentDownload
    rw [concRun_append, h]
    simp only [Option.bind, hr, hret, if_true]
  · intro sched errs hres
    unfold concurrentDownload at hres
    rcases h : concRun dl d (concInit p w) sched with _ | st
    · rw [h] at hres; simp at hres
    rw [h] at hres
    simp only at hres
    split_ifs at hres with hret
    cases hres
    have inv := concRun_inv dl d p w sched st h
    have hwg := inv.waited (Or.inr (Or.inr hret))
    have hex : st.workers.filter workerAlive = [] := by
      have := inv.wg_eq
      rw [hwg] at this
      exact List.length_eq_zero.mp this.symm
    have hsongs : st.workers.map Prod.fst = p.Songs := by
      have := inv.songs
      rw [hret] at this
      simpa [MainPC.remaining] using this
    have hsent := inv.sent
    rw [inv.drained hret, List.append_nil] at hsent
    unfold sequentialDownload
    rcases hnd with hnd | hst
    · have hboth : ConcInv p st ∧
          ((∀ g ∈ st.workers, WorkerScripted view o w st.world g) ∧
            ∀ s ∈ st.main.remaining, view st.world (videoURLOf s) = view w (videoURLOf s)) :=
        concRun_induct dl d
          (fun st => ConcInv p st ∧
            ((∀ g ∈ st.workers, WorkerScripted view o w st.world g) ∧
              ∀ s ∈ st.main.remaining,
                view st.world (videoURLOf s) = view w (videoURLOf s)))
          (fun st st1 a hP hs =>
            ⟨concStep_inv dl d p st st1 a hP.1 hs,
              concStep_scripted dl d view o p w hout hown hother hnd st st1 a hP.1 hP.2 hs⟩)
          sched (concInit p w) st
          ⟨concInit_inv p w, by simp [concInit], by simp [concInit, MainPC.remaining]⟩ h
      have hok : ∀ g ∈ st.workers, ∀ err, g.2 = WorkerPC.exited err →
          err = scriptedResult o (videoURLOf g.1) (view w (videoURLOf g.1)) := by
        intro g hg err hpc
        have := hboth.2.1 g hg
        obtain ⟨s, pc⟩ := g
        simp only at hpc
        subst hpc
        simpa [WorkerScripted] using this
      rw [sent_of_all_exited
        (fun s => scriptedResult o (videoURLOf s) (view w (videoURLOf s))) st.workers hok hex,
        hsongs] at hsent
      rw [sequentialLoop_scripted dl d view o hout hown hother p.Songs hnd w]
      exact hsent
    · have hdl : ∀ (u : String) (w1 w2 : W), (dl u d w1).1 = (dl u d w2).1 := by
        intro u w1 w2
        rw [hout, hout]
        exact hst u _ _
      have hall : ∀ g ∈ st.workers, WorkerOK (fun s => (dl (videoURLOf s) d w).1) g :=
        concRun_induct dl d
          (fun st => ∀ g ∈ st.workers, WorkerOK (fun s => (dl (videoURLOf s) d w).1) g)
          (fun st st1 a hP hs => concStep_workerOK dl d w hdl st st1 a hP hs)
          sched (concInit p w) st (by simp [concInit]) h
      have hok : ∀ g ∈ st.workers, ∀ err, g.2 = WorkerPC.exited err →
          err = retryOutcome (dl (videoURLOf g.1) d w).1 := by
        intro g hg err hpc
        have := hall g hg
        obtain ⟨s, pc⟩ := g
        simp only at hpc
        subst hpc
        simpa [WorkerOK] using this
      rw [sent_of_all_exited (fun s => retryOutcome (dl (videoURLOf s) d w).1) st.workers hok hex,
        hsongs] at hsent
      rw [sequentialLoop_stateless dl d w hdl p.Songs w]
      exact hsent

set_option maxRecDepth 100000 in
theorem concurrentDownload_perm_sequentialDownload_witness :
    (∀ (u : String) (w1 : String → Nat),
      (scriptedDownload scriptABC u "out" w1).1 = (scriptABC u (w1 u), w1 u + 1).1) ∧
    (∀ (u : String) (w1 : String → Nat),
      (scriptedDownload scriptABC u "out" w1).2 u = (scriptABC u (w1 u), w1 u + 1).2) ∧
    (∀ (u u' : String) (w1 : String → Nat), u' ≠ u →
      (scriptedDownload scriptABC u "out" w1).2 u' = w1 u') ∧
    (playlistABC.Songs.map videoURLOf).Nodup ∧
    ((∀ (sched : List (Option Nat)) (st : ConcState (String → Nat)),
      concRun (scriptedDownload scriptABC) "out" (concInit playlistABC (fun _ => 0)) sched =
          some st →
        sched.length ≤ 17 * playlistABC.Songs.length + 4) ∧
    (∀ (sched : List (Option Nat)) (st : ConcState (String → Nat)),
      concRun (scriptedDownload scriptABC) "out" (concInit playlistABC (fun _ => 0)) sched =
          some st →
        ∃ rest errs, concurrentDownload (scriptedDownload scriptABC) playlistABC "out"
          (fun _ => 0) (sched ++ rest) = some errs) ∧
    (∀ (sched : List (Option Nat)) (errs : List DownloadError),
      concurrentDownload (scriptedDownload scriptABC) playlistABC "out" (fun _ => 0) sched =
          some errs →
        errs.Perm
          (sequentialDownload (scriptedDownload scriptABC) playlistABC "out"
            (fun _ => 0)).val)) ∧
    ((concurrentDownload (scriptedDownload scriptABC) playlistABC "out" (fun _ => 0)
          scheduleCBA).map (fun errs => errs.map (fun e => e.Song.Name))) =
      some ["C", "A"] ∧
    (sequentialDownload (scriptedDownload scriptABC) playlistABC "out"
        (fun _ => 0)).val.map (fun e => e.Song.Name) = ["A", "C"] :=
  ⟨fun _ _ => rfl, fun u w1 => by simp [scriptedDownload],
    fun u u' w1 hu => by simp [scriptedDownload, hu],
    by decide,
    concurrentDownload_perm_sequentialDownload (scriptedDownload scriptABC)
      (fun calls u => calls u) (fun u l => (scriptABC u l, l + 1)) playlistABC "out"
      (fun _ => 0) (fun _ _ => rfl) (fun u w1 => by simp [scriptedDownload])
      (fun u u' w1 hu => by simp [scriptedDownload, hu]) (Or.inl (by decide)),
    by decide, by decide⟩

/-- C5: in every state a run of `concurrentDownload` reaches, under every schedule of the
goroutines and for a playlist of any size, at most 5 (the capacity of `semaphore`)
goroutines are inside `downloadYtVideoWithRetry`, and so at most 5 are inside
`downloadYtVideo`. -/
theorem concurrentDownload_in_flight_le_five (p : Playlist) (d : String) (w : W)
    (sched : List (Option Nat)) (st : ConcState W)
    (h : concRun dl d (concInit p w) sched = some st) :
    inFlightRetry st ≤ 5 ∧ inFlightCalls st ≤ 5 ∧ inFlightCalls st ≤ inFlightRetry st ∧
    inFlightRetry st ≤ st.semaphore := by
  have inv := concRun_inv dl d p w sched st h
  have h1 : inFlightRetry st ≤ st.semaphore := by
    rw [inv.sem_eq]
    exact filter_length_le_of_imp _ _ inRetry_holdsSlot st.workers
  have h2 : inFlightCalls st ≤ inFlightRetry st :=
    filter_length_le_of_imp _ _ inCall_inRetry st.workers
  have h3 := inv.sem_le
  unfold semaphoreCap at h3
  exact ⟨by omega, by omega, h2, h1⟩

set_option maxRecDepth 100000 in
theorem concurrentDownload_in_flight_le_five_witness :
    concRun (failsFor []) "out" (concInit playlistSeven ()) scheduleFiveCalls =
      some stateFiveCalls ∧
    inFlightCalls stateFiveCalls = 5 ∧
    (inFlightRetry stateFiveCalls ≤ 5 ∧ inFlightCalls stateFiveCalls ≤ 5 ∧
      inFlightCalls stateFiveCalls ≤ inFlightRetry stateFiveCalls ∧
      inFlightRetry stateFiveCalls ≤ stateFiveCalls.semaphore) :=
  ⟨by rfl, by decide,
    concurrentDownload_in_flight_le_five (failsFor []) playlistSeven "out" ()
      scheduleFiveCalls stateFiveCalls (by rfl)⟩

/-- C6: with `maxRetries = 3` and a download that fails on each call, the notice
"... Retrying..." is printed and `time.Sleep` is called after each of the three failed
attempts, the third included: there are three sleeps, and the last event before the error is
returned is a sleep that no attempt follows. -/
theorem downloadYtVideoWithRetry_sleeps_after_final_attempt :
    (downloadYtVideoWithRetry countingFailure "u" "out" 3 0).trace =
      [Event.call "u" "out", Event.print "Attempt 1 failed: error 0. Retrying...\n",
       Event.sleep 2000000000,
       Event.call "u" "out", Event.print "Attempt 2 failed: error 1. Retrying...\n",
       Event.sleep 2000000000,
       Event.call "u" "out", Event.print "Attempt 3 failed: error 2. Retrying...\n",
       Event.sleep 2000000000] ∧
    sleepCount (downloadYtVideoWithRetry countingFailure "u" "out" 3 0).trace = 3 ∧
    (downloadYtVideoWithRetry countingFailure "u" "out" 3 0).val =
      some (GoError.wrap "failed after 3 attempts: error 2" (GoError.leaf "error 2")) := by
  decide

/-- C7: on the audio-capable formats `[itag 139 at 48000, itag 251 at 160000]` the format
passed to `GetStream` is the first one, at 48000, although the list holds a format with a
higher average bitrate (which the selection loop has found). -/
theorem streamChoice_requests_first_format :
    streamChoice [Format.mk 139 48000, Format.mk 251 160000] =
      Except.ok (StreamChoice.mk (some (Format.mk 251 160000)) (Format.mk 139 48000)) ∧
    (Format.mk 139 48000).AverageBitrate < (Format.mk 251 160000).AverageBitrate ∧
    Format.mk 251 160000 ∈ [Format.mk 139 48000, Format.mk 251 160000] :=
  ⟨rfl, by decide, by decide⟩

set_option maxRecDepth 100000 in
/-- C8 (as the claim states it, refuted): 150 times the two-byte character U+00E9 has 150
characters, no more than 200, and none of them is replaced, yet the result is not the input:
it is the first 100 characters (200 bytes). -/
theorem sanitizeFilename_cuts_150_two_byte_characters :
    ((List.replicate 150 (Char.ofNat 233)).map sanitizeMapping).length ≤ 200 ∧
    (List.replicate 150 (Char.ofNat 233)).map sanitizeMapping =
      List.replicate 150 (Char.ofNat 233) ∧
    sanitizeFilename (String.mk (List.replicate 150 (Char.ofNat 233))) ≠
      utf8Encode ((List.replicate 150 (Char.ofNat 233)).map sanitizeMapping) ∧
    sanitizeFilename (String.mk (List.replicate 150 (Char.ofNat 233))) =
      utf8Encode (List.replicate 100 (Char.ofNat 233)) := by
  decide

/-- C8 (amended): the result never has more than 200 bytes; with `m` the input with each
invalid character replaced by `_`, the result equals `m` when the UTF-8 encoding of `m` has
at most 200 bytes, and otherwise, whenever the first `k` characters of `m` encode to exactly
200 bytes, the result is exactly those first `k` characters of `m`. -/
theorem sanitizeFilename_truncates_to_200_bytes (filename : String) :
    (sanitizeFilename filename).length ≤ 200 ∧
    ((utf8Encode (filename.data.map sanitizeMapping)).length ≤ 200 →
      sanitizeFilename filename = utf8Encode (filename.data.map sanitizeMapping)) ∧
    (200 < (utf8Encode (filename.data.map sanitizeMapping)).length →
      ∀ k, (utf8Encode ((filename.data.map sanitizeMapping).take k)).length = 200 →
        sanitizeFilename filename = utf8Encode ((filename.data.map sanitizeMapping).take k)) := by
  have hdef : sanitizeFilename filename =
      if (utf8Encode (filename.data.map sanitizeMapping)).length > 200 then
        (utf8Encode (filename.data.map sanitizeMapping)).take 200
      else utf8Encode (filename.data.map sanitizeMapping) := rfl
  refine ⟨?_, ?_, ?_⟩
  · rw [hdef]
    split_ifs with h
    · rw [List.length_take]; omega
    · omega
  · intro h
    rw [hdef, if_neg (by omega)]
  · intro h k hk
    rw [hdef, if_pos h]
    have hsplit : utf8Encode (filename.data.map sanitizeMapping) =
        utf8Encode ((filename.data.map sanitizeMapping).take k) ++
          utf8Encode ((filename.data.map sanitizeMapping).drop k) := by
      rw [← utf8Encode_append, List.take_append_drop]
    rw [hsplit]
    exact List.take_left' hk

set_option maxRecDepth 100000 in
theorem sanitizeFilename_truncates_to_200_bytes_witness :
    200 < (utf8Encode ((String.mk (List.replicate 150 (Char.ofNat 233))).data.map
      sanitizeMapping)).length ∧
    (utf8Encode (((String.mk (List.replicate 150 (Char.ofNat 233))).data.map
      sanitizeMapping).take 100)).length = 200 ∧
    sanitizeFilename (String.mk (List.replicate 150 (Char.ofNat 233))) =
      utf8Encode (((String.mk (List.replicate 150 (Char.ofNat 233))).data.map
        sanitizeMapping).take 100) ∧
    (utf8Encode ("a/b".data.map sanitizeMapping)).length ≤ 200 ∧
    sanitizeFilename "a/b" = utf8Encode ("a/b".data.map sanitizeMapping) ∧
    sanitizeFilename "a/b" = [97, 95, 98] :=
  ⟨by decide, by decide,
    (sanitizeFilename_truncates_to_200_bytes
      (String.mk (List.replicate 150 (Char.ofNat 233)))).2.2 (by decide) 100 (by decide),
    by decide,
    (sanitizeFilename_truncates_to_200_bytes "a/b").2.1 (by decide),
    by decide⟩

/-- C9: for every input, no byte of the result is below 32 or the code of one of
`/ \ : * ? " < > |`; with `m` the input in which each control character and each of these
reserved characters is replaced by one `_` and every other character is kept in place, no
character of `m` is a control or reserved character, and the result is the encoding of the
first `k` characters of `m` followed by fewer than four bytes, all at least 128 (the cut-off
head of a multi-byte character), where `k` is the length of `m` and nothing follows when the
encoding of `m` has at most 200 bytes. -/
theorem sanitizeFilename_safe (filename : String) :
    (∀ b ∈ sanitizeFilename filename, 32 ≤ b ∧ b ∉ [47, 92, 58, 42, 63, 34, 60, 62, 124]) ∧
    (∀ c ∈ filename.data.map (fun c =>
        if c.toNat < 32 ∨
          c ∈ ['/', Char.ofNat 92, ':', '*', '?', Char.ofNat 34, '<', '>', '|'] then '_'
        else c),
      32 ≤ c.toNat ∧ c ∉ ['/', Char.ofNat 92, ':', '*', '?', Char.ofNat 34, '<', '>', '|']) ∧
    ∃ (k : Nat) (tail : List Nat),
      sanitizeFilename filename =
        utf8Encode ((filename.data.map (fun c =>
          if c.toNat < 32 ∨
            c ∈ ['/', Char.ofNat 92, ':', '*', '?', Char.ofNat 34, '<', '>', '|'] then '_'
          else c)).take k) ++ tail ∧
      (∀ b ∈ tail, 128 ≤ b) ∧ tail.length < 4 ∧
      ((utf8Encode (filename.data.map (fun c =>
          if c.toNat < 32 ∨
            c ∈ ['/', Char.ofNat 92, ':', '*', '?', Char.ofNat 34, '<', '>', '|'] then '_'
          else c))).length ≤ 200 → k = filename.data.length ∧ tail = []) := by
  have hf : (fun c : Char =>
      if c.toNat < 32 ∨
        c ∈ ['/', Char.ofNat 92, ':', '*', '?', Char.ofNat 34, '<', '>', '|'] then '_'
      else c) = sanitizeMapping := funext (fun c => (sanitizeMapping_eq c).symm)
  rw [hf]
  have h := sanitizeFilename_shape filename
  simpa using h

theorem sanitizeFilename_safe_witness :
    ((∀ b ∈ sanitizeFilename "a/b:c", 32 ≤ b ∧ b ∉ [47, 92, 58, 42, 63, 34, 60, 62, 124]) ∧
    (∀ c ∈ "a/b:c".data.map (fun c =>
        if c.toNat < 32 ∨
          c ∈ ['/', Char.ofNat 92, ':', '*', '?', Char.ofNat 34, '<', '>', '|'] then '_'
        else c),
      32 ≤ c.toNat ∧ c ∉ ['/', Char.ofNat 92, ':', '*', '?', Char.ofNat 34, '<', '>', '|']) ∧
    ∃ (k : Nat) (tail : List Nat),
      sanitizeFilename "a/b:c" =
        utf8Encode (("a/b:c".data.map (fun c =>
          if c.toNat < 32 ∨
            c ∈ ['/', Char.ofNat 92, ':', '*', '?', Char.ofNat 34, '<', '>', '|'] then '_'
          else c)).take k) ++ tail ∧
      (∀ b ∈ tail, 128 ≤ b) ∧ tail.length < 4 ∧
      ((utf8Encode ("a/b:c".data.map (fun c =>
          if c.toNat < 32 ∨
            c ∈ ['/', Char.ofNat 92, ':', '*', '?', Char.ofNat 34, '<', '>', '|'] then '_'
          else c))).length ≤ 200 → k = "a/b:c".data.length ∧ tail = [])) ∧
    sanitizeFilename "a/b:c" = [97, 95, 98, 95, 99] :=
  ⟨sanitizeFilename_safe "a/b:c", by decide⟩

/-- C10: on the link `https://www.youtube.com/playlist/`, whose parse has host
`www.youtube.com`, path `/playlist/` and no `list` parameter, `extractYouTubePlaylistID`
returns the empty string together with a nil error. -/
theorem extractYouTubePlaylistID_empty_id_without_error :
    extractYouTubePlaylistID playlistSlashLib "https://www.youtube.com/playlist/" =
      ("", none) := by
  decide

end Claims

end PlaylistDownloader
